import Mathlib

/-!
# uniq: collapsing consecutive duplicate lines

A shallow embedding of `src/uniq.c` and a verification of its specification.

Modelling conventions.

* A C string (`const char *`, NUL-terminated) is the list of its characters
  before the terminating NUL: `Line := List Char`.  A pointer into a string is
  the suffix that starts at the pointer, so `s++` is `List.tail` and
  `*s == 0` is `s = []`.
* `isblank` is the classification of the "C" locale (the program never calls
  `setlocale`): space and horizontal tab.
* The input stream is the sequence of strings that the successive successful
  calls `fgets(cur, sizeof(cur), in)` leave in `cur`; the loop of `uniq` is a
  left fold over that sequence.
* The output stream is the sequence of records written to it, one record per
  call of `print_line` that reaches its `fprintf` calls; the bytes on the
  stream are the concatenation of the records.
* `uintmax_t count` is a natural number below `UINTMAX_MOD = 2 ^ 64`, and
  `count++` wraps modulo `UINTMAX_MOD`.
* `size_t fields`, `size_t chars` and `unsigned int flags` are natural numbers;
  the loops `while (n-- > 0)` run at most `n` times.
* `fopen`, `fclose` and `fgets` are the C library's: the outcome of the opens
  and the lines delivered are given by an environment, and the set of open
  handles is explicit state.  `LINE_MAX` is a parameter.
-/

namespace Uniq

/-- A C string: its characters up to the terminating NUL. -/
abbrev Line := List Char

/-! ## Flags (`enum { COUNT, DUPLICATES, UNIQUES }`) -/

/-- `COUNT = (1<<0)`. -/
def COUNT : Nat := 1 <<< 0

/-- `DUPLICATES = (1<<1)`. -/
def DUPLICATES : Nat := 1 <<< 1

/-- `UNIQUES = (1<<2)`. -/
def UNIQUES : Nat := 1 <<< 2

/-- Number of values of `uintmax_t` (64 bits): `count++` wraps modulo this. -/
def UINTMAX_MOD : Nat := 2 ^ 64

/-! ## `print_line` -/

/-- Decimal rendering of `%ju`. -/
def decimal (n : Nat) : Line := Nat.toDigits 10 n

/-- `print_line(out, line, count, flags)`: the output stream after the call.
The three early `return`s leave the stream as it is; otherwise one record is
appended, made of the text of `fprintf(out, "%ju ", count)` when `COUNT` is
set followed by the text of `fprintf(out, "%s", line)`. -/
def print_line (out : List Line) (line : Line) (count : Nat) (flags : Nat) : List Line :=
  if count = 0 then out
  else if flags &&& DUPLICATES ≠ 0 ∧ count = 1 then out
  else if flags &&& UNIQUES ≠ 0 ∧ count ≠ 1 then out
  else if flags &&& COUNT ≠ 0 then out ++ [decimal count ++ [' '] ++ line]
  else out ++ [line]

/-! ## Key extraction: `skip_fields`, `skip_chars`, `are_duplicates` -/

/-- `isblank` in the "C" locale. -/
def isblank (c : Char) : Bool := c = ' ' || c = '\t'

/-- `skip_fields(s, fields)`: each round stops at once on the end of the
string, and otherwise runs `while (*s && !isblank(*s)) s++;` and then
`while (*s && isblank(*s)) s++;`. -/
def skip_fields : Line → Nat → Line
  | s, 0 => s
  | [], _ + 1 => []
  | c :: s, n + 1 =>
    skip_fields (((c :: s).dropWhile (fun x => !isblank x)).dropWhile isblank) n

/-- `skip_chars(s, chars)`: advance by one character per round, stopping at
the end of the string. -/
def skip_chars : Line → Nat → Line
  | s, 0 => s
  | [], _ + 1 => []
  | _ :: s, n + 1 => skip_chars s n

/-- `are_duplicates(s1, s2, fields, chars)`: `strcmp` of the two strings after
skipping fields and then characters is `0`. -/
def are_duplicates (s1 s2 : Line) (fields chars : Nat) : Bool :=
  decide (skip_chars (skip_fields s1 fields) chars = skip_chars (skip_fields s2 fields) chars)

/-! ## The loop of `uniq` -/

/-- The variables of `uniq` that its loop changes: `count`, `prev`, the stream
`out`, and (ghost state, not in the program) the log `handed` of the
`(line, count)` arguments of every call of `print_line` so far. -/
structure UniqState where
  count : Nat
  prev : Line
  out : List Line
  handed : List (Line × Nat)
deriving DecidableEq, Repr

/-- State before the loop: `count = 0`, `prev = ""`, nothing written. -/
def uniq_init : UniqState := ⟨0, [], [], []⟩

/-- One round of `while (fgets(cur, sizeof(cur), in) != NULL)` with the line
`cur` just read. -/
def uniq_step (fields chars flags : Nat) (st : UniqState) (cur : Line) : UniqState :=
  if are_duplicates cur st.prev fields chars then
    { st with count := (st.count + 1) % UINTMAX_MOD }
  else
    { count := 1
      prev := cur
      out := print_line st.out st.prev st.count flags
      handed := st.handed ++ [(st.prev, st.count)] }

/-- Lines 131 to 141 of `uniq`: the loop over the lines read, then the final
`print_line(out, prev, count, flags)`. -/
def uniq_loop (lines : List Line) (fields chars flags : Nat) : UniqState :=
  let st := lines.foldl (uniq_step fields chars flags) uniq_init
  { st with
    out := print_line st.out st.prev st.count flags
    handed := st.handed ++ [(st.prev, st.count)] }

/-- Records written to the output stream by a run of `uniq` on `lines`. -/
def uniq_output (lines : List Line) (fields chars flags : Nat) : List Line :=
  (uniq_loop lines fields chars flags).out

/-- Runs handed to `print_line` during the run, in order. -/
def uniq_handed (lines : List Line) (fields chars flags : Nat) : List (Line × Nat) :=
  (uniq_loop lines fields chars flags).handed

/-- Bytes on the output stream: the records one after the other. -/
def uniq_text (lines : List Line) (fields chars flags : Nat) : Line :=
  (uniq_output lines fields chars flags).flatten

/-! ## Specification-level notions used to state the properties -/

/-- Comparison key of a line (spec, section 3): what `are_duplicates` compares,
the line after `skip_fields` and then `skip_chars`. -/
def comparison_key (line : Line) (fields chars : Nat) : Line :=
  skip_chars (skip_fields line fields) chars

/-- The step named by the spec (section 4.1): drop the longest prefix of
non-blank characters, then drop the longest prefix of blank characters. -/
def field_step (s : Line) : Line :=
  (s.dropWhile (fun x => !isblank x)).dropWhile isblank

/-- Number of field starts in `s`, where `prevBlank` tells whether the
character before `s` is a blank (or `s` is the start of the line): a field
starts at every non-blank character that follows a blank or starts the line. -/
def num_fields_from : Bool → Line → Nat
  | _, [] => 0
  | prevBlank, c :: s =>
    (if prevBlank && !isblank c then 1 else 0) + num_fields_from (isblank c) s

/-- Number of fields of a line, a field being a maximal run of non-blank
characters (spec, glossary). -/
def num_fields (s : Line) : Nat := num_fields_from true s

/-- The part of the line that begins at the start of its `(n+1)`-th field, or
the end of the line when it has at most `n` fields (following the spec's
words: fields are maximal runs of non-blank characters, delimited by blanks).
The first field starts after the leading blanks; the next one after the
non-blank run and the blanks that follow it. -/
def from_field : Line → Nat → Line
  | s, 0 => s.dropWhile isblank
  | s, n + 1 => from_field ((s.dropWhile isblank).dropWhile (fun x => !isblank x)) n

/-- Remove from an output record its leading decimal digits and the single
space that follows them. -/
def strip_count (record : Line) : Line :=
  match record.dropWhile Char.isDigit with
  | ' ' :: rest => rest
  | other => other

/-- The calls `print_line(out, line, count, flags)` still to come when the
loop is in the state `(prev, count)` with `lines` left to read: the loop of
`uniq` unfolded by recursion on the lines left. -/
def pending_calls (fields chars : Nat) : Line → Nat → List Line → List (Line × Nat)
  | prev, count, [] => [(prev, count)]
  | prev, count, cur :: rest =>
    if are_duplicates cur prev fields chars then
      pending_calls fields chars prev ((count + 1) % UINTMAX_MOD) rest
    else
      (prev, count) :: pending_calls fields chars cur 1 rest

/-- Runs closed by the engine: the calls of `print_line` with a count that is
not zero (a call with count `0` stands for "nothing buffered"). -/
def closed_runs (lines : List Line) (fields chars : Nat) : List (Line × Nat) :=
  (uniq_handed lines fields chars 0).filter (fun r => r.2 ≠ 0)

/-- The decomposition of the input into its maximal runs of consecutive lines
with equal comparison keys (spec, section 3 and glossary), each run given as
its first line and the lines that follow it in the run. A line joins the run
that starts right after it when its key equals the key of that run's first
line, and starts a run of its own otherwise. -/
def maximal_runs (fields chars : Nat) : List Line → List (Line × List Line)
  | [] => []
  | l :: rest =>
    match maximal_runs fields chars rest with
    | [] => [(l, [])]
    | (r, others) :: runs =>
      if are_duplicates l r fields chars then (l, r :: others) :: runs
      else (l, []) :: (r, others) :: runs

/-- The Run of the spec for a run of lines: its first line and its length. -/
def run_summary (g : Line × List Line) : Line × Nat := (g.1, g.2.length + 1)

/-- What the loop hands to `print_line` from the state `(prev, count)` when
the lines left to read decompose into `runs`: the first run is added to the
buffered one when its key equals the key of `prev`. -/
def merge_first (fields chars : Nat) (prev : Line) (count : Nat) :
    List (Line × List Line) → List (Line × Nat)
  | [] => [(prev, count)]
  | g :: gs =>
    if are_duplicates g.1 prev fields chars then
      (prev, count + (g.2.length + 1)) :: gs.map run_summary
    else (prev, count) :: (g :: gs).map run_summary

/-! ## `fgets` and the lines read from a stream -/

/-- The characters that one call of `fgets` with room for `n` characters takes
from the stream: at most `n`, stopping after the first newline or at the end
of the stream.  The result is the string stored in the buffer and the stream
left to read. -/
def fgets_take : Nat → List Char → Line × List Char
  | 0, s => ([], s)
  | _ + 1, [] => ([], [])
  | n + 1, ch :: s =>
    if ch = '\n' then ([ch], s)
    else (ch :: (fgets_take n s).1, (fgets_take n s).2)

/-- Modelled from the spec: `fgets` is the C library's and `LINE_MAX` comes
from `limits.h`, neither is in src/.  `fgets(cur, size, in)` reads at most
`size - 1` characters, up to and including the first newline, and returns
`NULL` (here `none`) when the stream is at its end and no character was read;
`size` stands for `sizeof(cur) = LINE_MAX`. -/
def fgets (size : Nat) (stream : List Char) : Option (Line × List Char) :=
  match stream with
  | [] => none
  | _ :: _ => some (fgets_take (size - 1) stream)

/-- The strings left in `cur` by the successive calls `fgets(cur, size, in)`
of the loop `while (fgets(cur, sizeof(cur), in) != NULL)`, until the call that
returns `NULL`; `fuel` bounds the number of calls. -/
def read_lines (size : Nat) : Nat → List Char → List Line
  | 0, _ => []
  | fuel + 1, stream =>
    match fgets size stream with
    | none => []
    | some (line, rest) => line :: read_lines size fuel rest

/-- The lines that the loop reads from a whole stream.  When `2 ≤ size` every
successful call of `fgets` takes at least one character, so that as many calls
as the stream has characters reach its end. -/
def input_lines (size : Nat) (stream : List Char) : List Line :=
  read_lines size stream.length stream

/-! ## The function `uniq` and the operands of `main` -/

/-- The stream handles of a run: the two standard streams, and the handles
that `fopen` returns for the input path and for the output path. -/
inductive Handle where
  | std_in
  | std_out
  | input_file
  | output_file
deriving DecidableEq, Repr

/-- What the environment answers to one call of `uniq`: whether
`fopen(path, "r")` and `fopen(path, "w")` succeed, and the strings that the
successive calls of `fgets` on the input handle deliver. -/
structure Env where
  fopen_read : Line → Bool
  fopen_write : Line → Bool
  lines : List Line

/-- Observable result of one call of `uniq`: the value returned, the records
written to the output stream, the paths named in the messages sent to
`stderr`, the number of lines read, and the handles open on return. -/
structure UniqResult where
  status : Nat
  written : List Line
  reported : List Line
  lines_read : Nat
  open_handles : List Handle
deriving DecidableEq, Repr

/-- The string `"-"` that stands for a standard stream. -/
def dash : Line := ['-']

/-- Handles open when `uniq` is entered. -/
def initial_handles : List Handle := [Handle.std_in, Handle.std_out]

/-- The function `uniq(input, output, fields, chars, flags)`, with the set of
open handles as explicit state: a successful `fopen` adds its handle, `fclose`
removes its argument.  The two `return 1` leave the handles as they are at
that point; the normal path runs the loop and closes `out` and `in`. -/
def uniq (env : Env) (input output : Line) (fields chars flags : Nat) : UniqResult :=
  let in_opened : Bool := decide (input ≠ dash)
  if in_opened && !env.fopen_read input then
    { status := 1, written := [], reported := [input], lines_read := 0,
      open_handles := initial_handles }
  else
    let hin := if in_opened then Handle.input_file else Handle.std_in
    let handles1 := if in_opened then Handle.input_file :: initial_handles else initial_handles
    let out_opened : Bool := decide (output ≠ dash)
    if out_opened && !env.fopen_write output then
      { status := 1, written := [], reported := [output], lines_read := 0,
        open_handles := handles1 }
    else
      let hout := if out_opened then Handle.output_file else Handle.std_out
      let handles2 := if out_opened then Handle.output_file :: handles1 else handles1
      let st := uniq_loop env.lines fields chars flags
      { status := 0, written := st.out, reported := [], lines_read := env.lines.length,
        open_handles := (handles2.erase hout).erase hin }

/-- Result of `main`: its exit status and (ghost) the `input` and `output`
arguments of its call of `uniq`, when it makes one. -/
structure MainResult where
  status : Nat
  engine_call : Option (Line × Line)
deriving DecidableEq, Repr

/-- Lines 186 to 204 of `main`, after the option loop: `operands` are
`argv[optind]` to `argv[argc - 1]`, and `fields`, `chars`, `flags` the values
set by the options. -/
def main (env : Env) (operands : List Line) (fields chars flags : Nat) : MainResult :=
  if operands.length > 2 then ⟨1, none⟩
  else
    let output := if operands.length > 1 then operands.getD 1 dash else dash
    let input := if operands.length > 0 then operands.getD 0 dash else dash
    if input = output ∧ input = dash then ⟨1, none⟩
    else ⟨(uniq env input output fields chars flags).status, some (input, output)⟩

/-- Whether the comparison key of a line is empty (the skipping exhausts the
line). -/
def has_empty_key (fields chars : Nat) (line : Line) : Bool :=
  decide (comparison_key line fields chars = [])

/-- The lines with the first one replaced by the empty string when its
comparison key is empty: what the empty initial buffer does to the first
record of the default output. -/
def blank_first (fields chars : Nat) : List Line → List Line
  | [] => []
  | l0 :: rest => (if comparison_key l0 fields chars = [] then [] else l0) :: rest

/-- The lines of a text as it stands on a stream: each line runs up to and
including its newline, and the last one may lack it. -/
def text_lines : List Char → List Line
  | [] => []
  | ch :: s =>
    if ch = '\n' then [ch] :: text_lines s
    else
      match text_lines s with
      | [] => [[ch]]
      | l :: ls => (ch :: l) :: ls

/-! ## Key extraction -/

theorem skip_chars_eq_drop (s : Line) (n : Nat) : skip_chars s n = s.drop n := by
  induction n generalizing s with
  | zero => cases s <;> rfl
  | succ n ih =>
    cases s with
    | nil => rfl
    | cons c s => simpa [skip_chars] using ih s

theorem skip_fields_nil (n : Nat) : skip_fields [] n = [] := by
  cases n <;> rfl

theorem field_step_nil : field_step [] = [] := rfl

theorem skip_fields_succ (s : Line) (n : Nat) :
    skip_fields s (n + 1) = skip_fields (field_step s) n := by
  cases s with
  | nil => simp [skip_fields, field_step_nil, skip_fields_nil]
  | cons c s => rfl

theorem skip_fields_eq_iterate (s : Line) (n : Nat) : skip_fields s n = field_step^[n] s := by
  induction n generalizing s with
  | zero => cases s <;> rfl
  | succ n ih => rw [skip_fields_succ, ih, Function.iterate_succ_apply]

theorem field_step_suffix (s : Line) : field_step s <:+ s :=
  (List.dropWhile_suffix _).trans (List.dropWhile_suffix _)

theorem skip_fields_suffix (s : Line) (n : Nat) : skip_fields s n <:+ s := by
  induction n generalizing s with
  | zero => cases s <;> exact List.suffix_refl _
  | succ n ih =>
    rw [skip_fields_succ]
    exact (ih _).trans (field_step_suffix s)

theorem comparison_key_suffix (line : Line) (f c : Nat) : comparison_key line f c <:+ line := by
  unfold comparison_key
  rw [skip_chars_eq_drop]
  exact (List.drop_suffix _ _).trans (skip_fields_suffix line f)

theorem comparison_key_nil (f c : Nat) : comparison_key [] f c = [] := by
  simp [comparison_key, skip_fields_nil, skip_chars_eq_drop]

theorem are_duplicates_iff (s1 s2 : Line) (f c : Nat) :
    are_duplicates s1 s2 f c = true ↔ comparison_key s1 f c = comparison_key s2 f c := by
  simp [are_duplicates, comparison_key]

theorem are_duplicates_eq_false_iff (s1 s2 : Line) (f c : Nat) :
    are_duplicates s1 s2 f c = false ↔ comparison_key s1 f c ≠ comparison_key s2 f c := by
  simp [are_duplicates, comparison_key]

theorem comparison_key_zero (line : Line) : comparison_key line 0 0 = line := by
  cases line <;> rfl

/-! ## The loop as a list of calls of `print_line` -/

theorem print_line_eq_append (out : List Line) (line : Line) (count flags : Nat) :
    print_line out line count flags = out ++ print_line [] line count flags := by
  unfold print_line
  split_ifs <;> simp

theorem foldl_step_handed (f c flags : Nat) (lines : List Line) (st : UniqState) :
    (lines.foldl (uniq_step f c flags) st).handed
        ++ [((lines.foldl (uniq_step f c flags) st).prev,
             (lines.foldl (uniq_step f c flags) st).count)]
      = st.handed ++ pending_calls f c st.prev st.count lines := by
  induction lines generalizing st with
  | nil => simp [pending_calls]
  | cons cur rest ih =>
    rw [List.foldl_cons, ih]
    by_cases h : are_duplicates cur st.prev f c = true
    · simp [uniq_step, pending_calls, h]
    · simp [uniq_step, pending_calls, h]

theorem foldl_step_out (f c flags : Nat) (lines : List Line) (st : UniqState) :
    print_line (lines.foldl (uniq_step f c flags) st).out
        (lines.foldl (uniq_step f c flags) st).prev
        (lines.foldl (uniq_step f c flags) st).count flags
      = st.out ++ (pending_calls f c st.prev st.count lines).flatMap
          (fun r => print_line [] r.1 r.2 flags) := by
  induction lines generalizing st with
  | nil =>
    simp only [List.foldl_nil, pending_calls, List.flatMap_cons, List.flatMap_nil,
      List.append_nil]
    exact print_line_eq_append _ _ _ _
  | cons cur rest ih =>
    rw [List.foldl_cons, ih]
    by_cases h : are_duplicates cur st.prev f c = true
    · simp [uniq_step, pending_calls, h]
    · simp only [uniq_step, pending_calls, h, Bool.false_eq_true, if_false,
        List.flatMap_cons, ← List.append_assoc]
      rw [← print_line_eq_append]

theorem uniq_handed_eq (lines : List Line) (f c flags : Nat) :
    uniq_handed lines f c flags = pending_calls f c [] 0 lines := by
  have h := foldl_step_handed f c flags lines uniq_init
  simpa [uniq_handed, uniq_loop, uniq_init] using h

theorem uniq_output_eq (lines : List Line) (f c flags : Nat) :
    uniq_output lines f c flags
      = (pending_calls f c [] 0 lines).flatMap (fun r => print_line [] r.1 r.2 flags) := by
  have h := foldl_step_out f c flags lines uniq_init
  simpa [uniq_output, uniq_loop, uniq_init] using h

theorem flatMap_ite_singleton {α β : Type} (p : α → Prop) [DecidablePred p] (g : α → β)
    (l : List α) :
    l.flatMap (fun r => if p r then [g r] else []) = (l.filter (fun r => decide (p r))).map g := by
  induction l with
  | nil => rfl
  | cons a l ih =>
    by_cases h : p a
    · simp [List.flatMap_cons, List.filter_cons, h, ih]
    · simp [List.flatMap_cons, List.filter_cons, h, ih]

theorem print_line_default (line : Line) (count : Nat) :
    print_line [] line count 0 = if count ≠ 0 then [line] else [] := by
  by_cases h : count = 0 <;> simp [print_line, h]

theorem uniq_output_default (lines : List Line) (f c : Nat) :
    uniq_output lines f c 0 = (closed_runs lines f c).map Prod.fst := by
  rw [uniq_output_eq, closed_runs, uniq_handed_eq]
  simp only [print_line_default]
  exact flatMap_ite_singleton (fun r : Line × Nat => r.2 ≠ 0) Prod.fst _

theorem closed_runs_eq (lines : List Line) (f c : Nat) :
    closed_runs lines f c = (pending_calls f c [] 0 lines).filter (fun r => decide (r.2 ≠ 0)) := by
  rw [closed_runs, uniq_handed_eq]

theorem closed_filter_cons (line : Line) (count : Nat) (rs : List (Line × Nat))
    (hk : count ≠ 0) :
    ((line, count) :: rs).filter (fun r => decide (r.2 ≠ 0))
      = (line, count) :: rs.filter (fun r => decide (r.2 ≠ 0)) := by
  simp [List.filter_cons, hk]

theorem closed_filter_cons_zero (line : Line) (rs : List (Line × Nat)) :
    ((line, 0) :: rs).filter (fun r => decide (r.2 ≠ 0))
      = rs.filter (fun r => decide (r.2 ≠ 0)) := by
  simp [List.filter_cons]

/-! ## Maximal runs -/

theorem maximal_runs_cons_shape (f c : Nat) (l : Line) (rest : List Line) :
    ∃ others runs, maximal_runs f c (l :: rest) = (l, others) :: runs := by
  rw [maximal_runs]
  rcases maximal_runs f c rest with _ | ⟨⟨r, others⟩, runs⟩
  · exact ⟨[], [], rfl⟩
  · by_cases h : are_duplicates l r f c = true
    · exact ⟨r :: others, runs, by simp [h]⟩
    · exact ⟨[], (r, others) :: runs, by simp [h]⟩

theorem maximal_runs_flatten (f c : Nat) (lines : List Line) :
    (maximal_runs f c lines).flatMap (fun g => g.1 :: g.2) = lines := by
  induction lines with
  | nil => rfl
  | cons l rest ih =>
    rw [maximal_runs]
    rcases h : maximal_runs f c rest with _ | ⟨⟨r, others⟩, runs⟩
    · rw [h] at ih
      simp only [List.flatMap_nil] at ih
      simp [← ih]
    · rw [h] at ih
      simp only [List.flatMap_cons] at ih
      by_cases hd : are_duplicates l r f c = true
      · simp [hd, List.flatMap_cons, ← ih]
      · simp [hd, List.flatMap_cons, ← ih]

theorem maximal_runs_same_key (f c : Nat) (lines : List Line) :
    ∀ g ∈ maximal_runs f c lines, ∀ x ∈ g.2,
      comparison_key x f c = comparison_key g.1 f c := by
  induction lines with
  | nil => intro g hg; simp [maximal_runs] at hg
  | cons l rest ih =>
    intro g hg
    rw [maximal_runs] at hg
    rcases h : maximal_runs f c rest with _ | ⟨⟨r, others⟩, runs⟩
    · rw [h] at hg
      simp only [List.mem_singleton] at hg
      subst hg
      intro x hx
      simp at hx
    · rw [h] at hg ih
      by_cases hd : are_duplicates l r f c = true
      · simp only [hd, if_true, List.mem_cons] at hg
        rcases hg with rfl | hg
        · intro x hx
          have hlr := (are_duplicates_iff l r f c).mp hd
          rcases List.mem_cons.mp hx with rfl | hx
          · exact hlr.symm
          · exact (ih (r, others) (List.mem_cons_self _ _) x hx).trans hlr.symm
        · exact ih g (List.mem_cons_of_mem _ hg)
      · simp only [hd, Bool.false_eq_true, if_false, List.mem_cons] at hg
        rcases hg with rfl | hg
        · intro x hx
          simp at hx
        · exact ih g (List.mem_cons.mpr hg)

theorem maximal_runs_adjacent_differ (f c : Nat) (lines : List Line) :
    (maximal_runs f c lines).Chain'
      (fun g h => comparison_key g.1 f c ≠ comparison_key h.1 f c) := by
  induction lines with
  | nil => exact List.chain'_nil
  | cons l rest ih =>
    rw [maximal_runs]
    rcases h : maximal_runs f c rest with _ | ⟨⟨r, others⟩, runs⟩
    · exact List.chain'_singleton _
    · rw [h] at ih
      by_cases hd : are_duplicates l r f c = true
      · simp only [hd, if_true]
        have hlr := (are_duplicates_iff l r f c).mp hd
        rw [List.chain'_cons'] at ih ⊢
        refine ⟨?_, ih.2⟩
        intro y hy
        have := ih.1 y hy
        simpa [hlr] using this
      · simp only [hd, Bool.false_eq_true, if_false]
        exact List.chain'_cons.mpr ⟨(are_duplicates_eq_false_iff l r f c).mp (by simpa using hd), ih⟩

theorem are_duplicates_comm (a b : Line) (f c : Nat) :
    are_duplicates a b f c = are_duplicates b a f c := by
  unfold are_duplicates
  exact decide_eq_decide.mpr eq_comm

theorem pending_calls_eq_merge (f c : Nat) (lines : List Line) :
    ∀ (prev : Line) (count : Nat), count + lines.length < UINTMAX_MOD →
      pending_calls f c prev count lines = merge_first f c prev count (maximal_runs f c lines) := by
  induction lines with
  | nil => intro prev count _; rfl
  | cons cur rest ih =>
    intro prev count hb
    simp only [List.length_cons] at hb
    have hm : (count + 1) % UINTMAX_MOD = count + 1 := Nat.mod_eq_of_lt (by omega)
    have hm1 : (1 : Nat) + rest.length < UINTMAX_MOD := by omega
    rw [pending_calls, maximal_runs]
    by_cases hd : are_duplicates cur prev f c = true
    · rw [if_pos hd, hm, ih prev (count + 1) (by omega)]
      have hk := (are_duplicates_iff cur prev f c).mp hd
      rcases maximal_runs f c rest with _ | ⟨⟨r, others⟩, runs⟩
      · simp [merge_first, hd]
      · by_cases hr : are_duplicates cur r f c = true
        · have hk2 := (are_duplicates_iff cur r f c).mp hr
          have hrp : are_duplicates r prev f c = true :=
            (are_duplicates_iff r prev f c).mpr (hk2.symm.trans hk)
          simp only [merge_first, hrp, hr, hd, if_true, List.length_cons]
          congr 2
          omega
        · have hk2 := (are_duplicates_eq_false_iff cur r f c).mp (by simpa using hr)
          have hrp : are_duplicates r prev f c = false :=
            (are_duplicates_eq_false_iff r prev f c).mpr (fun e => hk2 (hk.trans e.symm))
          simp [merge_first, hrp, hr, hd, run_summary]
    · rw [if_neg hd, ih cur 1 hm1]
      rcases maximal_runs f c rest with _ | ⟨⟨r, others⟩, runs⟩
      · simp [merge_first, hd, run_summary]
      · have hrc : are_duplicates r cur f c = are_duplicates cur r f c :=
          are_duplicates_comm r cur f c
        by_cases hr : are_duplicates cur r f c = true
        · simp only [merge_first, hr, hd, if_true, Bool.false_eq_true, if_false,
            List.map_cons, run_summary, List.length_cons, List.length_nil]
          simp only [hrc, hr, if_true]
          congr 3
          omega
        · simp only [merge_first, hr, hd, Bool.false_eq_true, if_false,
            List.map_cons, run_summary, List.length_nil]
          simp only [hrc, hr, Bool.false_eq_true, if_false]

theorem closed_filter_summaries (runs : List (Line × List Line)) :
    (runs.map run_summary).filter (fun r => decide (r.2 ≠ 0)) = runs.map run_summary := by
  apply List.filter_eq_self.mpr
  intro r hr
  obtain ⟨g, _, rfl⟩ := List.mem_map.mp hr
  simp [run_summary]

theorem closed_runs_eq_maximal (lines : List Line) (f c : Nat)
    (hlen : lines.length < UINTMAX_MOD) :
    closed_runs lines f c =
      match maximal_runs f c lines with
      | [] => []
      | g :: gs =>
        ((if comparison_key g.1 f c = [] then [] else g.1), g.2.length + 1)
          :: gs.map run_summary := by
  rw [closed_runs_eq, pending_calls_eq_merge f c lines [] 0 (by omega)]
  rcases maximal_runs f c lines with _ | ⟨g, gs⟩
  · simp [merge_first]
  · by_cases hk : comparison_key g.1 f c = []
    · have hd : are_duplicates g.1 [] f c = true := by
        rw [are_duplicates_iff, comparison_key_nil]; exact hk
      simp only [merge_first, hd, if_true, hk, Nat.zero_add]
      rw [closed_filter_cons _ _ _ (Nat.succ_ne_zero _), closed_filter_summaries]
    · have hd : are_duplicates g.1 [] f c = false := by
        rw [are_duplicates_eq_false_iff, comparison_key_nil]; exact hk
      simp only [merge_first, hd, Bool.false_eq_true, if_false, hk]
      rw [closed_filter_cons_zero, closed_filter_summaries]
      rfl

theorem closed_runs_of_first_key (lines : List Line) (f c : Nat)
    (hlen : lines.length < UINTMAX_MOD)
    (hfirst : ∀ l, lines.head? = some l → comparison_key l f c ≠ []) :
    closed_runs lines f c = (maximal_runs f c lines).map run_summary := by
  rw [closed_runs_eq_maximal lines f c hlen]
  cases lines with
  | nil => rfl
  | cons l rest =>
    obtain ⟨others, runs, h⟩ := maximal_runs_cons_shape f c l rest
    rw [h]
    simp [hfirst l rfl, run_summary]

theorem closed_runs_counts (lines : List Line) (f c : Nat)
    (hlen : lines.length < UINTMAX_MOD) :
    (closed_runs lines f c).map Prod.snd
      = (maximal_runs f c lines).map (fun g => g.2.length + 1) := by
  rw [closed_runs_eq_maximal lines f c hlen]
  rcases maximal_runs f c lines with _ | ⟨g, gs⟩
  · rfl
  · simp [run_summary, Function.comp_def]

/-! ## Default mode on whole lines (no skipping) -/

theorem are_duplicates_zero (s1 s2 : Line) : are_duplicates s1 s2 0 0 = decide (s1 = s2) := by
  simp [are_duplicates, skip_chars_eq_drop, skip_fields]

theorem pending_identical_destutter (lines : List Line) :
    ∀ (prev : Line) (count : Nat), 0 < count → count + lines.length < UINTMAX_MOD →
      ((pending_calls 0 0 prev count lines).filter (fun r => decide (r.2 ≠ 0))).map Prod.fst
        = List.destutter' (· ≠ ·) prev lines := by
  induction lines with
  | nil =>
    intro prev count hc _
    simp [pending_calls, Nat.pos_iff_ne_zero.mp hc]
  | cons cur rest ih =>
    intro prev count hc hb
    simp only [List.length_cons] at hb
    by_cases h : cur = prev
    · have hm : (count + 1) % UINTMAX_MOD = count + 1 := Nat.mod_eq_of_lt (by omega)
      rw [pending_calls, are_duplicates_zero, if_pos (by simpa using h), hm,
        ih prev (count + 1) (by omega) (by omega), List.destutter'_cons_neg]
      simpa using h.symm
    · have hne : prev ≠ cur := fun e => h e.symm
      rw [pending_calls, are_duplicates_zero, if_neg (by simpa using h),
        List.destutter'_cons_pos _ hne]
      rw [closed_filter_cons _ _ _ (Nat.pos_iff_ne_zero.mp hc), List.map_cons,
        ih cur 1 (by omega) (by omega)]

theorem uniq_output_identical (lines : List Line) (hlen : lines.length < UINTMAX_MOD) :
    uniq_output lines 0 0 0 = lines.destutter (· ≠ ·) := by
  rw [uniq_output_default, closed_runs, uniq_handed_eq]
  cases lines with
  | nil => simp [pending_calls]
  | cons cur rest =>
    simp only [List.length_cons] at hlen
    have h1 : (0 + 1) % UINTMAX_MOD = 1 := by decide
    by_cases h : cur = []
    · subst h
      rw [pending_calls, are_duplicates_zero, if_pos (by simp), h1,
        pending_identical_destutter rest [] 1 (by omega) (by omega)]
      rfl
    · rw [pending_calls, are_duplicates_zero, if_neg (by simpa using h)]
      rw [closed_filter_cons_zero, pending_identical_destutter rest cur 1 (by omega) (by omega)]
      rfl

theorem uniq_output_identical_runs (lines : List Line) (hlen : lines.length < UINTMAX_MOD) :
    uniq_output lines 0 0 0 = (maximal_runs 0 0 lines).map Prod.fst := by
  rw [uniq_output_default, closed_runs_eq_maximal lines 0 0 hlen]
  rcases maximal_runs 0 0 lines with _ | ⟨g, gs⟩
  · rfl
  · by_cases hk : g.1 = []
    · simp [comparison_key_zero, hk, run_summary, Function.comp_def]
    · simp [comparison_key_zero, hk, run_summary, Function.comp_def]

/-- C1: with `fields = 0`, `chars = 0` and no flag, the records written are,
in input order, the first lines of the maximal runs of consecutive identical
lines of the input (the runs concatenate to the input, the lines of a run
are equal to its first line, and the first lines of adjacent runs differ),
and the bytes written are the concatenation of these first lines.  The
records are the input with adjacent repetitions removed
(`List.destutter (· ≠ ·)`): they form a sublist of the input lines and no two
adjacent records are identical.  The input has fewer than `2 ^ 64` lines, so
that `uintmax_t count` does not wrap. -/
theorem default_output_collapses_runs (lines : List Line)
    (hlen : lines.length < UINTMAX_MOD) :
    uniq_output lines 0 0 0 = (maximal_runs 0 0 lines).map Prod.fst ∧
    (maximal_runs 0 0 lines).flatMap (fun g => g.1 :: g.2) = lines ∧
    (∀ g ∈ maximal_runs 0 0 lines, ∀ x ∈ g.2, x = g.1) ∧
    (maximal_runs 0 0 lines).Chain' (fun g h => g.1 ≠ h.1) ∧
    uniq_text lines 0 0 0 = ((maximal_runs 0 0 lines).map Prod.fst).flatten ∧
    uniq_output lines 0 0 0 = lines.destutter (· ≠ ·) ∧
    (uniq_output lines 0 0 0).Sublist lines ∧
    (uniq_output lines 0 0 0).Chain' (· ≠ ·) := by
  have h := uniq_output_identical lines hlen
  have hr := uniq_output_identical_runs lines hlen
  refine ⟨hr, maximal_runs_flatten 0 0 lines, ?_, ?_, by rw [uniq_text, hr], h, ?_, ?_⟩
  · intro g hg x hx
    have := maximal_runs_same_key 0 0 lines g hg x hx
    simpa [comparison_key_zero] using this
  · have := maximal_runs_adjacent_differ 0 0 lines
    simpa [comparison_key_zero] using this
  · rw [h]; exact List.destutter_sublist _ _
  · rw [h]; exact List.destutter_is_chain' _ _

/-- Witness of C1 on the spec's example 1: `a\n a\n b\n` gives `a\n b\n`. -/
theorem default_output_collapses_runs_witness :
    [['a', '\n'], ['a', '\n'], ['b', '\n']].length < UINTMAX_MOD ∧
    uniq_output [['a', '\n'], ['a', '\n'], ['b', '\n']] 0 0 0
      = [['a', '\n'], ['b', '\n']] ∧
    uniq_text [['a', '\n'], ['a', '\n'], ['b', '\n']] 0 0 0 = ['a', '\n', 'b', '\n'] :=
  have h := default_output_collapses_runs [['a', '\n'], ['a', '\n'], ['b', '\n']] (by decide)
  ⟨by decide, h.1.trans (by decide), h.2.2.2.2.1.trans (by decide)⟩

/-! ## The first line is compared with the empty initial buffer -/

/-- C2 (evaluation at the failing inputs): on the two lines `a\n`, `b\n`
with `fields = 1` both keys are empty, the lines form one maximal run whose
first line is `a\n`, and the engine hands to `print_line` the single run
`("", 2)`, whose representative is the initial buffer and not an input line;
on the single line `a\n` with `chars = 5` it hands `("", 1)`. -/
theorem first_run_keeps_initial_buffer :
    comparison_key ['a', '\n'] 1 0 = [] ∧ comparison_key ['b', '\n'] 1 0 = [] ∧
    uniq_handed [['a', '\n'], ['b', '\n']] 1 0 0 = [([], 2)] ∧
    uniq_output [['a', '\n'], ['b', '\n']] 1 0 0 = [[]] ∧
    uniq_handed [['a', '\n']] 0 5 0 = [([], 1)] ∧
    uniq_text [['a', '\n']] 0 5 0 = [] := by
  decide

/-! ## Emission policy -/

theorem decimal_eq_toString (n : Nat) : String.mk (decimal n) = toString n := rfl

/-- C3: `print_line` appends a record exactly when `count ≥ 1`, and
`DUPLICATES` is not set or `count ≠ 1`, and `UNIQUES` is not set or
`count = 1`; the record is the line verbatim, preceded by the decimal
rendering of the count and one space exactly when `COUNT` is set; with both
`DUPLICATES` and `UNIQUES` set nothing is written, whatever the count. -/
theorem print_line_emission_policy (out : List Line) (R : Line) (c flags : Nat) :
    (print_line out R c flags =
      if 1 ≤ c ∧ (flags &&& DUPLICATES = 0 ∨ c ≠ 1) ∧ (flags &&& UNIQUES = 0 ∨ c = 1) then
        out ++ [(if flags &&& COUNT ≠ 0 then decimal c ++ [' '] else []) ++ R]
      else out) ∧
    (print_line out R c flags ≠ out ↔
      1 ≤ c ∧ (flags &&& DUPLICATES = 0 ∨ c ≠ 1) ∧ (flags &&& UNIQUES = 0 ∨ c = 1)) ∧
    String.mk (decimal c) = toString c ∧
    (flags &&& DUPLICATES ≠ 0 → flags &&& UNIQUES ≠ 0 → print_line out R c flags = out) := by
  have key : print_line out R c flags =
      if 1 ≤ c ∧ (flags &&& DUPLICATES = 0 ∨ c ≠ 1) ∧ (flags &&& UNIQUES = 0 ∨ c = 1) then
        out ++ [(if flags &&& COUNT ≠ 0 then decimal c ++ [' '] else []) ++ R]
      else out := by
    unfold print_line
    by_cases h0 : c = 0
    · simp [h0]
    · by_cases h1 : c = 1
      · by_cases hd : flags &&& DUPLICATES = 0 <;> by_cases hc : flags &&& COUNT = 0 <;>
          simp [h1, hd, hc]
      · have h1c : 1 ≤ c := Nat.pos_of_ne_zero h0
        by_cases hu : flags &&& UNIQUES = 0 <;> by_cases hc : flags &&& COUNT = 0 <;>
          simp [h0, h1, hu, hc, h1c]
  refine ⟨key, ?_, rfl, ?_⟩
  · rw [key]
    by_cases h : 1 ≤ c ∧ (flags &&& DUPLICATES = 0 ∨ c ≠ 1) ∧ (flags &&& UNIQUES = 0 ∨ c = 1)
    · simp [h]
    · simp [h]
  · intro hd hu
    rw [key, if_neg]
    rintro ⟨_, h2, h3⟩
    rcases h2 with h2 | h2
    · exact hd h2
    · rcases h3 with h3 | h3
      · exact hu h3
      · exact h2 h3

/-- Witness of C3: with `DUPLICATES` and `UNIQUES` both set (`flags = 6`), a
run of count 2 is not written. -/
theorem print_line_emission_policy_witness :
    6 &&& DUPLICATES ≠ 0 ∧ 6 &&& UNIQUES ≠ 0 ∧ print_line [] ['a', '\n'] 2 6 = [] :=
  ⟨by decide, by decide,
    (print_line_emission_policy [] ['a', '\n'] 2 6).2.2.2 (by decide) (by decide)⟩

/-! ## Output modes as filters on the closed runs -/

theorem print_line_count (line : Line) (count : Nat) :
    print_line [] line count COUNT
      = if count ≠ 0 then [decimal count ++ [' '] ++ line] else [] := by
  have h1 : COUNT &&& DUPLICATES = 0 := by decide
  have h2 : COUNT &&& UNIQUES = 0 := by decide
  have h3 : COUNT ≠ 0 := by decide
  by_cases h : count = 0 <;> simp [print_line, h, h1, h2, h3]

theorem print_line_duplicates (line : Line) (count : Nat) :
    print_line [] line count DUPLICATES = if count ≠ 0 ∧ 1 < count then [line] else [] := by
  have h1 : DUPLICATES ≠ 0 := by decide
  have h2 : DUPLICATES &&& UNIQUES = 0 := by decide
  have h3 : DUPLICATES &&& COUNT = 0 := by decide
  by_cases h : count = 0
  · simp [print_line, h]
  · by_cases h' : count = 1
    · simp [print_line, h', h1]
    · have : 1 < count := by omega
      simp [print_line, h, h', h1, h2, h3, this]

theorem print_line_uniques (line : Line) (count : Nat) :
    print_line [] line count UNIQUES = if count ≠ 0 ∧ count = 1 then [line] else [] := by
  have h1 : UNIQUES &&& DUPLICATES = 0 := by decide
  have h2 : UNIQUES ≠ 0 := by decide
  have h3 : UNIQUES &&& COUNT = 0 := by decide
  by_cases h : count = 0
  · simp [print_line, h]
  · by_cases h' : count = 1
    · simp [print_line, h', h1, h3]
    · simp [print_line, h, h', h1, h2]

theorem uniq_output_count (lines : List Line) (f c : Nat) :
    uniq_output lines f c COUNT
      = (closed_runs lines f c).map (fun r => decimal r.2 ++ [' '] ++ r.1) := by
  rw [uniq_output_eq, closed_runs_eq]
  simp only [print_line_count]
  exact flatMap_ite_singleton (fun r : Line × Nat => r.2 ≠ 0)
    (fun r => decimal r.2 ++ [' '] ++ r.1) _

theorem uniq_output_duplicates (lines : List Line) (f c : Nat) :
    uniq_output lines f c DUPLICATES
      = ((closed_runs lines f c).filter (fun r => decide (1 < r.2))).map Prod.fst := by
  rw [uniq_output_eq, closed_runs_eq]
  simp only [print_line_duplicates]
  rw [flatMap_ite_singleton (fun r : Line × Nat => r.2 ≠ 0 ∧ 1 < r.2) Prod.fst,
    List.filter_filter]
  congr 1
  apply List.filter_congr
  intro r _
  by_cases h1 : r.2 = 0 <;> by_cases h2 : 1 < r.2 <;> simp [h1, h2]

theorem uniq_output_uniques (lines : List Line) (f c : Nat) :
    uniq_output lines f c UNIQUES
      = ((closed_runs lines f c).filter (fun r => decide (r.2 = 1))).map Prod.fst := by
  rw [uniq_output_eq, closed_runs_eq]
  simp only [print_line_uniques]
  rw [flatMap_ite_singleton (fun r : Line × Nat => r.2 ≠ 0 ∧ r.2 = 1) Prod.fst,
    List.filter_filter]
  congr 1
  apply List.filter_congr
  intro r _
  by_cases h1 : r.2 = 0 <;> by_cases h2 : r.2 = 1 <;> simp [h1, h2]

theorem digitChar_isDigit : ∀ d < 10, (Nat.digitChar d).isDigit = true := by decide

theorem toDigitsCore_isDigit (fuel : Nat) :
    ∀ (n : Nat) (acc : List Char), (∀ ch ∈ acc, ch.isDigit = true) →
      ∀ ch ∈ Nat.toDigitsCore 10 fuel n acc, ch.isDigit = true := by
  induction fuel with
  | zero => intro n acc h; simpa [Nat.toDigitsCore] using h
  | succ fuel ih =>
    intro n acc h
    have hd : ∀ ch ∈ Nat.digitChar (n % 10) :: acc, ch.isDigit = true := by
      intro ch hch
      rcases List.mem_cons.mp hch with rfl | hch
      · exact digitChar_isDigit _ (Nat.mod_lt _ (by decide))
      · exact h ch hch
    simp only [Nat.toDigitsCore]
    split_ifs
    · exact hd
    · exact ih _ _ hd

theorem decimal_isDigit (n : Nat) : ∀ ch ∈ decimal n, ch.isDigit = true :=
  toDigitsCore_isDigit _ _ _ (by simp)

theorem dropWhile_append_stop {α : Type} (p : α → Bool) (xs : List α) (y : α) (ys : List α)
    (hxs : ∀ x ∈ xs, p x = true) (hy : p y = false) :
    (xs ++ y :: ys).dropWhile p = y :: ys := by
  induction xs with
  | nil => simp [List.dropWhile_cons, hy]
  | cons x xs ih =>
    have hx : p x = true := hxs x (List.mem_cons_self _ _)
    simp only [List.cons_append, List.dropWhile_cons, hx, if_true]
    exact ih (fun z hz => hxs z (List.mem_cons_of_mem _ hz))

theorem strip_count_record (count : Nat) (line : Line) :
    strip_count (decimal count ++ [' '] ++ line) = line := by
  unfold strip_count
  rw [List.append_assoc, List.singleton_append,
    dropWhile_append_stop Char.isDigit _ ' ' line (decimal_isDigit count) (by decide)]
  rfl

/-- On records: the output with only `COUNT` set is the default-mode output with
every record prefixed by the decimal count of its run and one space; removing
the leading digits and the one space after them from every `-c` record gives
the default-mode output, same records in the same order.  The counts are the
lengths of the maximal runs of lines with equal keys, in order (for an input
of fewer than `2 ^ 64` lines, so that `uintmax_t count` does not wrap). -/
theorem count_mode_is_prefixed_default (lines : List Line) (f c : Nat) :
    uniq_output lines f c COUNT
      = (closed_runs lines f c).map (fun r => decimal r.2 ++ [' '] ++ r.1) ∧
    uniq_output lines f c 0 = (closed_runs lines f c).map Prod.fst ∧
    (uniq_output lines f c COUNT).map strip_count = uniq_output lines f c 0 ∧
    (lines.length < UINTMAX_MOD →
      (closed_runs lines f c).map Prod.snd
        = (maximal_runs f c lines).map (fun g => g.2.length + 1)) := by
  refine ⟨uniq_output_count lines f c, uniq_output_default lines f c, ?_,
    closed_runs_counts lines f c⟩
  rw [uniq_output_count, uniq_output_default, List.map_map]
  apply List.map_congr_left
  intro r _
  exact strip_count_record r.2 r.1

/-- The spec's example 2 on records: `a\n a\n b\n` with `-c` gives
`2 a\n 1 b\n`, and stripping the counts gives `a\n b\n`. -/
theorem count_mode_is_prefixed_default_witness :
    uniq_output [['a', '\n'], ['a', '\n'], ['b', '\n']] 0 0 COUNT
      = [['2', ' ', 'a', '\n'], ['1', ' ', 'b', '\n']] ∧
    (uniq_output [['a', '\n'], ['a', '\n'], ['b', '\n']] 0 0 COUNT).map strip_count
      = [['a', '\n'], ['b', '\n']] :=
  ⟨by decide,
    (count_mode_is_prefixed_default [['a', '\n'], ['a', '\n'], ['b', '\n']] 0 0).2.2.1.trans
      (by decide)⟩

/-- C5: the records written with only `DUPLICATES` set are those of the
closed runs of count above 1, the records written with only `UNIQUES` set are
those of the closed runs of count 1, both in the order of the default-mode
output, which has one record per closed run; every closed run is in exactly
one of the two classes. -/
theorem duplicates_uniques_partition_default (lines : List Line) (f c : Nat) :
    uniq_output lines f c 0 = (closed_runs lines f c).map Prod.fst ∧
    uniq_output lines f c DUPLICATES
      = ((closed_runs lines f c).filter (fun r => decide (1 < r.2))).map Prod.fst ∧
    uniq_output lines f c UNIQUES
      = ((closed_runs lines f c).filter (fun r => decide (r.2 = 1))).map Prod.fst ∧
    (∀ r ∈ closed_runs lines f c, (1 < r.2 ∧ r.2 ≠ 1) ∨ (r.2 = 1 ∧ ¬ 1 < r.2)) ∧
    (uniq_output lines f c DUPLICATES).Sublist (uniq_output lines f c 0) ∧
    (uniq_output lines f c UNIQUES).Sublist (uniq_output lines f c 0) ∧
    (uniq_output lines f c DUPLICATES).length + (uniq_output lines f c UNIQUES).length
      = (uniq_output lines f c 0).length := by
  refine ⟨uniq_output_default lines f c, uniq_output_duplicates lines f c,
    uniq_output_uniques lines f c, ?_, ?_, ?_, ?_⟩
  · intro r hr
    have h0 : r.2 ≠ 0 := by
      have := (List.mem_filter.mp hr).2
      simpa using this
    omega
  · rw [uniq_output_duplicates, uniq_output_default]
    exact (List.filter_sublist _).map _
  · rw [uniq_output_uniques, uniq_output_default]
    exact (List.filter_sublist _).map _
  · rw [uniq_output_duplicates, uniq_output_uniques, uniq_output_default]
    simp only [List.length_map]
    have hcl : ∀ r ∈ closed_runs lines f c, r.2 ≠ 0 := by
      intro r hr
      have := (List.mem_filter.mp hr).2
      simpa using this
    generalize closed_runs lines f c = rs at hcl
    induction rs with
    | nil => rfl
    | cons r rs ih =>
      have h0 := hcl r (List.mem_cons_self _ _)
      have ih := ih (fun x hx => hcl x (List.mem_cons_of_mem _ hx))
      by_cases h1 : r.2 = 1
      · simp only [List.filter_cons, h1, Nat.lt_irrefl, decide_True, decide_False, if_true,
          Bool.false_eq_true, if_false, List.length_cons] at ih ⊢
        omega
      · have h2 : 1 < r.2 := by omega
        simp only [List.filter_cons, h1, h2, decide_True, decide_False, if_true,
          Bool.false_eq_true, if_false, List.length_cons] at ih ⊢
        omega

/-- Witness of C5 on the spec's examples 3 and 4: on `a\n a\n b\n` the
closed runs are `(a\n, 2)` and `(b\n, 1)`; `-d` writes `a\n` and `-u` writes
`b\n`. -/
theorem duplicates_uniques_partition_default_witness :
    closed_runs [['a', '\n'], ['a', '\n'], ['b', '\n']] 0 0
      = [(['a', '\n'], 2), (['b', '\n'], 1)] ∧
    uniq_output [['a', '\n'], ['a', '\n'], ['b', '\n']] 0 0 DUPLICATES = [['a', '\n']] ∧
    uniq_output [['a', '\n'], ['a', '\n'], ['b', '\n']] 0 0 UNIQUES = [['b', '\n']] :=
  have h := duplicates_uniques_partition_default [['a', '\n'], ['a', '\n'], ['b', '\n']] 0 0
  ⟨by decide, h.2.1.trans (by decide), h.2.2.1.trans (by decide)⟩

/-! ## Key extraction: suffix, exhaustion, fields -/

/-- C6: the comparison key `skip_chars (skip_fields line f) c` is a suffix of
the line; `skip_chars s c` is `s` without its first `min c (length s)`
characters; when `c` is at least the length of what field skipping leaves, the
key is empty; two lines whose keys are exhausted in this way are reported as
duplicates. -/
theorem key_is_suffix_and_exhausts :
    (∀ (line : Line) (f c : Nat), skip_chars (skip_fields line f) c <:+ line) ∧
    (∀ (s : Line) (c : Nat), skip_chars s c = s.drop (min c s.length)) ∧
    (∀ (line : Line) (f c : Nat), (skip_fields line f).length ≤ c →
      skip_chars (skip_fields line f) c = []) ∧
    (∀ (l1 l2 : Line) (f c : Nat), (skip_fields l1 f).length ≤ c →
      (skip_fields l2 f).length ≤ c → are_duplicates l1 l2 f c = true) := by
  have hex : ∀ (line : Line) (f c : Nat), (skip_fields line f).length ≤ c →
      skip_chars (skip_fields line f) c = [] := by
    intro line f c h
    rw [skip_chars_eq_drop]
    exact List.drop_eq_nil_of_le h
  refine ⟨comparison_key_suffix, ?_, hex, ?_⟩
  · intro s c
    rw [skip_chars_eq_drop]
    rcases Nat.le_total c s.length with h | h
    · rw [Nat.min_eq_left h]
    · rw [Nat.min_eq_right h, List.drop_length, List.drop_eq_nil_of_le h]
  · intro l1 l2 f c h1 h2
    simp [are_duplicates, hex l1 f c h1, hex l2 f c h2]

/-- Witness of C6: with `chars = 5` the keys of `ab\n` and `c\n` are both
exhausted and the two lines are duplicates. -/
theorem key_is_suffix_and_exhausts_witness :
    (skip_fields ['a', 'b', '\n'] 0).length ≤ 5 ∧ (skip_fields ['c', '\n'] 0).length ≤ 5 ∧
    skip_chars (skip_fields ['a', 'b', '\n'] 0) 5 = [] ∧
    are_duplicates ['a', 'b', '\n'] ['c', '\n'] 0 5 = true :=
  ⟨by decide, by decide,
    key_is_suffix_and_exhausts.2.2.1 ['a', 'b', '\n'] 0 5 (by decide),
    key_is_suffix_and_exhausts.2.2.2 ['a', 'b', '\n'] ['c', '\n'] 0 5 (by decide) (by decide)⟩

theorem field_step_word_blanks (w b rest : Line)
    (hw : ∀ x ∈ w, isblank x = false) (hb : ∀ x ∈ b, isblank x = true) (hb0 : b ≠ [])
    (hrest : ∀ x, rest.head? = some x → isblank x = false) :
    field_step (w ++ b ++ rest) = rest := by
  unfold field_step
  obtain ⟨b0, b', rfl⟩ := List.exists_cons_of_ne_nil hb0
  have hb0' : isblank b0 = true := hb b0 (List.mem_cons_self _ _)
  rw [List.append_assoc, List.cons_append,
    dropWhile_append_stop (fun x => !isblank x) w b0 (b' ++ rest)
      (fun x hx => by simp [hw x hx]) (by simp [hb0'])]
  cases rest with
  | nil =>
    rw [List.append_nil]
    exact List.dropWhile_eq_nil_iff.mpr hb
  | cons r rest =>
    rw [← List.cons_append]
    exact dropWhile_append_stop isblank _ r rest hb (hrest r rfl)

theorem skip_one_field_word_blanks (w b rest : Line)
    (hw : ∀ x ∈ w, isblank x = false) (hb : ∀ x ∈ b, isblank x = true) (hb0 : b ≠ [])
    (hrest : ∀ x, rest.head? = some x → isblank x = false) :
    skip_fields (w ++ b ++ rest) 1 = rest := by
  rw [skip_fields_succ, field_step_word_blanks w b rest hw hb hb0 hrest]
  cases rest <;> rfl

theorem are_duplicates_same_rest (w1 w2 b1 b2 rest : Line)
    (hw1 : ∀ x ∈ w1, isblank x = false) (hw2 : ∀ x ∈ w2, isblank x = false)
    (hb1 : ∀ x ∈ b1, isblank x = true) (hb2 : ∀ x ∈ b2, isblank x = true)
    (hb1n : b1 ≠ []) (hb2n : b2 ≠ [])
    (hrest : ∀ x, rest.head? = some x → isblank x = false) :
    are_duplicates (w1 ++ b1 ++ rest) (w2 ++ b2 ++ rest) 1 0 = true := by
  rw [are_duplicates_iff, comparison_key, comparison_key,
    skip_one_field_word_blanks w1 b1 rest hw1 hb1 hb1n hrest,
    skip_one_field_word_blanks w2 b2 rest hw2 hb2 hb2n hrest]

theorem uniq_two_lines_same_rest (w1 w2 b1 b2 rest : Line)
    (hw1 : ∀ x ∈ w1, isblank x = false) (hw2 : ∀ x ∈ w2, isblank x = false)
    (hb1 : ∀ x ∈ b1, isblank x = true) (hb2 : ∀ x ∈ b2, isblank x = true)
    (hb1n : b1 ≠ []) (hb2n : b2 ≠ [])
    (hrest : ∀ x, rest.head? = some x → isblank x = false) (hne : rest ≠ []) :
    uniq_handed [w1 ++ b1 ++ rest, w2 ++ b2 ++ rest] 1 0 0
      = [([], 0), (w1 ++ b1 ++ rest, 2)] ∧
    uniq_output [w1 ++ b1 ++ rest, w2 ++ b2 ++ rest] 1 0 0 = [w1 ++ b1 ++ rest] := by
  have h1 : are_duplicates (w1 ++ b1 ++ rest) [] 1 0 = false := by
    rw [are_duplicates_eq_false_iff, comparison_key_nil, comparison_key,
      skip_one_field_word_blanks w1 b1 rest hw1 hb1 hb1n hrest]
    cases rest with
    | nil => exact absurd rfl hne
    | cons r rest => simp [skip_chars]
  have h2 : are_duplicates (w2 ++ b2 ++ rest) (w1 ++ b1 ++ rest) 1 0 = true :=
    are_duplicates_same_rest w2 w1 b2 b1 rest hw2 hw1 hb2 hb1 hb2n hb1n hrest
  have hm : (1 + 1) % UINTMAX_MOD = 2 := by decide
  have hh : uniq_handed [w1 ++ b1 ++ rest, w2 ++ b2 ++ rest] 1 0 0
      = [([], 0), (w1 ++ b1 ++ rest, 2)] := by
    rw [uniq_handed_eq]
    simp only [pending_calls, h1, h2, hm, if_true, Bool.false_eq_true, if_false]
  refine ⟨hh, ?_⟩
  rw [uniq_output_default, closed_runs, hh]
  simp [List.filter_cons]

theorem uniq_two_lines_empty_rest (w1 w2 b1 b2 : Line)
    (hw1 : ∀ x ∈ w1, isblank x = false) (hw2 : ∀ x ∈ w2, isblank x = false)
    (hb1 : ∀ x ∈ b1, isblank x = true) (hb2 : ∀ x ∈ b2, isblank x = true)
    (hb1n : b1 ≠ []) (hb2n : b2 ≠ []) :
    uniq_handed [w1 ++ b1, w2 ++ b2] 1 0 0 = [([], 2)] ∧
    uniq_output [w1 ++ b1, w2 ++ b2] 1 0 0 = [[]] := by
  have k1 : comparison_key (w1 ++ b1) 1 0 = [] := by
    have := skip_one_field_word_blanks w1 b1 [] hw1 hb1 hb1n (by simp)
    rw [List.append_nil] at this
    rw [comparison_key, this]; rfl
  have k2 : comparison_key (w2 ++ b2) 1 0 = [] := by
    have := skip_one_field_word_blanks w2 b2 [] hw2 hb2 hb2n (by simp)
    rw [List.append_nil] at this
    rw [comparison_key, this]; rfl
  have h1 : are_duplicates (w1 ++ b1) [] 1 0 = true := by
    rw [are_duplicates_iff, k1, comparison_key_nil]
  have h2 : are_duplicates (w2 ++ b2) [] 1 0 = true := by
    rw [are_duplicates_iff, k2, comparison_key_nil]
  have hm1 : (0 + 1) % UINTMAX_MOD = 1 := by decide
  have hm : (1 + 1) % UINTMAX_MOD = 2 := by decide
  have hh : uniq_handed [w1 ++ b1, w2 ++ b2] 1 0 0 = [([], 2)] := by
    rw [uniq_handed_eq]
    simp only [pending_calls, h1, h2, hm1, hm, if_true]
  refine ⟨hh, ?_⟩
  rw [uniq_output_default, closed_runs, hh]
  simp [List.filter_cons]

/-- C7 (evaluation at the failing input): `uniq -f 1` on two lines of the form
word + blanks + rest with the rest empty.  The first line is 2046 times `x`
and one space (what `fgets` leaves in `cur` for `LINE_MAX = 2048` when the
stream goes on without a newline), the second is `y` and one space.  The two
lines are duplicates of each other, both keys are empty as is the key of
the empty initial buffer, and the engine writes the single empty record
instead of the first line.  The same holds for the short lines `a ` and
`b `. -/
theorem field_skip_empty_rest_loses_first_line :
    are_duplicates (List.replicate 2046 'x' ++ [' ']) ['y', ' '] 1 0 = true ∧
    uniq_handed [List.replicate 2046 'x' ++ [' '], ['y', ' ']] 1 0 0 = [([], 2)] ∧
    uniq_output [List.replicate 2046 'x' ++ [' '], ['y', ' ']] 1 0 0 = [[]] ∧
    uniq_output [List.replicate 2046 'x' ++ [' '], ['y', ' ']] 1 0 0
      ≠ [List.replicate 2046 'x' ++ [' ']] ∧
    uniq_output [['a', ' '], ['b', ' ']] 1 0 0 = [[]] := by
  have hx : ∀ c ∈ List.replicate 2046 'x', isblank c = false := by
    intro c hc
    rw [List.eq_of_mem_replicate hc]
    decide
  have hy : ∀ c ∈ ['y'], isblank c = false := by decide
  have hs : ∀ c ∈ [' '], isblank c = true := by decide
  have h := uniq_two_lines_empty_rest (List.replicate 2046 'x') ['y'] [' '] [' ']
    hx hy hs hs (by simp) (by simp)
  have hd := are_duplicates_same_rest (List.replicate 2046 'x') ['y'] [' '] [' '] []
    hx hy hs hs (by simp) (by simp) (by simp)
  simp only [List.append_nil] at hd
  have ho : uniq_output [List.replicate 2046 'x' ++ [' '], ['y', ' ']] 1 0 0 = [[]] := h.2
  refine ⟨hd, h.1, ho, ?_, by decide⟩
  rw [ho]
  intro e
  have e1 : ([] : Line) = List.replicate 2046 'x' ++ [' '] := (List.cons.inj e).1
  exact List.append_ne_nil_of_right_ne_nil _ (List.cons_ne_nil _ _) e1.symm

/-! ## Field skipping and the start of the next field -/

theorem from_field_dropWhile_blank (s : Line) (n : Nat) :
    from_field (s.dropWhile isblank) n = from_field s n := by
  cases n with
  | zero => simp [from_field, List.dropWhile_idempotent]
  | succ n => simp [from_field, List.dropWhile_idempotent]

theorem dropWhile_blank_of_head (s : Line) (h : ∀ x, s.head? = some x → isblank x = false) :
    s.dropWhile isblank = s := by
  cases s with
  | nil => rfl
  | cons x s => simp [List.dropWhile_cons, h x rfl]

theorem field_step_head (s : Line) : ∀ x, (field_step s).head? = some x → isblank x = false := by
  intro x hx
  have h := List.head?_dropWhile_not isblank (s.dropWhile (fun x => !isblank x))
  unfold field_step at hx
  rw [hx] at h
  exact h

theorem skip_fields_eq_from_field (n : Nat) :
    ∀ (s : Line), (∀ x, s.head? = some x → isblank x = false) →
      skip_fields s n = from_field s n := by
  induction n with
  | zero =>
    intro s h
    rw [from_field, dropWhile_blank_of_head s h]
    cases s <;> rfl
  | succ n ih =>
    intro s h
    rw [skip_fields_succ, ih _ (field_step_head s), from_field, dropWhile_blank_of_head s h,
      field_step, from_field_dropWhile_blank]

theorem skip_fields_succ_leading_blank (n : Nat) (s : Line)
    (h : ∃ x, s.head? = some x ∧ isblank x = true) :
    skip_fields s (n + 1) = from_field s n := by
  obtain ⟨x, hx, hb⟩ := h
  have hs : s.dropWhile (fun x => !isblank x) = s := by
    cases s with
    | nil => rfl
    | cons y s =>
      have : y = x := by simpa using hx
      subst this
      simp [List.dropWhile_cons, hb]
  have hstep : field_step s = s.dropWhile isblank := by rw [field_step, hs]
  rw [skip_fields_succ, skip_fields_eq_from_field n _ (field_step_head s), hstep,
    from_field_dropWhile_blank]

theorem num_fields_dropWhile_blank (s : Line) :
    num_fields_from true (s.dropWhile isblank) = num_fields_from true s := by
  induction s with
  | nil => rfl
  | cons x s ih =>
    by_cases hx : isblank x = true
    · simp [List.dropWhile_cons, hx, num_fields_from, ih]
    · simp [List.dropWhile_cons, hx]

theorem num_fields_dropWhile_nonblank (u : Line) :
    num_fields_from true (u.dropWhile (fun x => !isblank x)) = num_fields_from false u := by
  induction u with
  | nil => rfl
  | cons x u ih =>
    by_cases hx : isblank x = true
    · simp [List.dropWhile_cons, hx, num_fields_from]
    · simp [List.dropWhile_cons, hx, num_fields_from, ih]

theorem num_fields_from_false (t : Line) (h : ∀ x, t.head? = some x → isblank x = false) :
    num_fields_from false t = num_fields_from true t - 1 := by
  cases t with
  | nil => rfl
  | cons x t => simp [num_fields_from, h x rfl]

theorem num_fields_from_field (n : Nat) :
    ∀ s : Line, num_fields (from_field s n) = num_fields s - n := by
  induction n with
  | zero =>
    intro s
    simp [from_field, num_fields, num_fields_dropWhile_blank]
  | succ n ih =>
    intro s
    rw [from_field, ih]
    unfold num_fields
    rw [num_fields_dropWhile_nonblank,
      num_fields_from_false _ (fun x hx => by
        have h := List.head?_dropWhile_not isblank s
        rw [hx] at h
        exact h),
      num_fields_dropWhile_blank]
    omega

theorem from_field_suffix (n : Nat) : ∀ s : Line, from_field s n <:+ s := by
  induction n with
  | zero => intro s; exact List.dropWhile_suffix _
  | succ n ih =>
    intro s
    rw [from_field]
    exact (ih _).trans ((List.dropWhile_suffix _).trans (List.dropWhile_suffix _))

theorem from_field_head (n : Nat) :
    ∀ (s : Line) (x : Char), (from_field s n).head? = some x → isblank x = false := by
  induction n with
  | zero =>
    intro s x hx
    have h := List.head?_dropWhile_not isblank s
    rw [from_field] at hx
    rw [hx] at h
    exact h
  | succ n ih =>
    intro s x hx
    rw [from_field] at hx
    exact ih _ x hx

/-- C8 (counterexample): the line `  a b` has two fields, the part that
begins at the start of its second field is `b`, and `skip_fields` with one
field leaves `a b`: only the leading blanks are consumed. -/
theorem skip_fields_leading_blanks_counterexample :
    1 ≤ num_fields [' ', ' ', 'a', ' ', 'b'] ∧
    from_field [' ', ' ', 'a', ' ', 'b'] 1 = ['b'] ∧
    skip_fields [' ', ' ', 'a', ' ', 'b'] 1 = ['a', ' ', 'b'] ∧
    skip_fields [' ', ' ', 'a', ' ', 'b'] 1 ≠ from_field [' ', ' ', 'a', ' ', 'b'] 1 := by
  decide

/-- C8 (amended): for a line that does not begin with a blank, skipping `n`
fields leaves exactly the part of the line that begins at the start of its
`(n+1)`-th field, or the end of the line if there is none; for a line that
begins with a blank the first round of skipping consumes the leading blanks
only, so that skipping `n + 1` fields leaves the part that begins at the
start of the `(n+1)`-th field.  Both hold for every `n`, in particular when
the line has at least `n` fields.  The part that begins at the start of the
`(n+1)`-th field is a suffix of the line, does not begin with a blank, and
has `n` fields fewer than the line. -/
theorem skip_fields_reaches_field_start (s : Line) (n : Nat) :
    ((∀ x, s.head? = some x → isblank x = false) → skip_fields s n = from_field s n) ∧
    ((∃ x, s.head? = some x ∧ isblank x = true) → skip_fields s (n + 1) = from_field s n) ∧
    from_field s n <:+ s ∧
    (∀ x, (from_field s n).head? = some x → isblank x = false) ∧
    num_fields (from_field s n) = num_fields s - n :=
  ⟨skip_fields_eq_from_field n s, skip_fields_succ_leading_blank n s,
    from_field_suffix n s, from_field_head n s, num_fields_from_field n s⟩

/-- Witness of C8 (amended): `a b` after one field starts at `b`; `  a b`
after one field starts at `a` and after two fields at `b`. -/
theorem skip_fields_reaches_field_start_witness :
    skip_fields ['a', ' ', 'b'] 1 = ['b'] ∧
    skip_fields [' ', ' ', 'a', ' ', 'b'] 1 = ['a', ' ', 'b'] ∧
    skip_fields [' ', ' ', 'a', ' ', 'b'] 2 = ['b'] :=
  ⟨((skip_fields_reaches_field_start ['a', ' ', 'b'] 1).1 (by decide)).trans (by decide),
    ((skip_fields_reaches_field_start [' ', ' ', 'a', ' ', 'b'] 0).2.1 ⟨' ', rfl, rfl⟩).trans
      (by decide),
    ((skip_fields_reaches_field_start [' ', ' ', 'a', ' ', 'b'] 1).2.1 ⟨' ', rfl, rfl⟩).trans
      (by decide)⟩

/-! ## Line terminators take part in the comparison -/

theorem field_step_append_nonblank (s : Line) (x : Char) (hx : isblank x = false) :
    field_step (s ++ [x]) = field_step s ++ [x] ∨
      (field_step (s ++ [x]) = [] ∧ field_step s = []) := by
  unfold field_step
  by_cases h : s.dropWhile (fun x => !isblank x) = []
  · right
    have h' : (s ++ [x]).dropWhile (fun x => !isblank x) = [] := by
      rw [List.dropWhile_append, h]
      simp [List.dropWhile_cons, hx]
    rw [h', h]
    exact ⟨rfl, rfl⟩
  · left
    have h' : (s ++ [x]).dropWhile (fun x => !isblank x)
        = s.dropWhile (fun x => !isblank x) ++ [x] := by
      rw [List.dropWhile_append, if_neg (by simpa using h)]
    rw [h', List.dropWhile_append]
    split_ifs with h2
    · have h3 : (s.dropWhile (fun x => !isblank x)).dropWhile isblank = [] := by
        simpa using h2
      rw [h3]
      simp [List.dropWhile_cons, hx]
    · rfl

theorem skip_fields_append_nonblank (x : Char) (hx : isblank x = false) (n : Nat) :
    ∀ s : Line, skip_fields (s ++ [x]) n = skip_fields s n ++ [x] ∨
      (skip_fields (s ++ [x]) n = [] ∧ skip_fields s n = []) := by
  induction n with
  | zero =>
    intro s
    left
    rw [skip_fields_eq_iterate, skip_fields_eq_iterate]
    rfl
  | succ n ih =>
    intro s
    rw [skip_fields_succ, skip_fields_succ]
    rcases field_step_append_nonblank s x hx with h | ⟨h1, h2⟩
    · rw [h]
      exact ih _
    · right
      rw [h1, h2, skip_fields_nil]
      exact ⟨rfl, rfl⟩

theorem comparison_key_append_nonblank (x : Char) (hx : isblank x = false) (s : Line)
    (f c : Nat) :
    comparison_key (s ++ [x]) f c = comparison_key s f c ↔ comparison_key (s ++ [x]) f c = [] := by
  unfold comparison_key
  rw [skip_chars_eq_drop, skip_chars_eq_drop]
  rcases skip_fields_append_nonblank x hx f s with h | ⟨h1, h2⟩
  · rw [h]
    rcases Nat.lt_or_ge (skip_fields s f).length c with hc | hc
    · have e1 : List.drop c (skip_fields s f ++ [x]) = [] :=
        List.drop_eq_nil_of_le (by simp; omega)
      have e2 : List.drop c (skip_fields s f) = [] := List.drop_eq_nil_of_le (by omega)
      rw [e1, e2]
    · have e1 : List.drop c (skip_fields s f ++ [x]) = List.drop c (skip_fields s f) ++ [x] :=
        List.drop_append_of_le_length hc
      rw [e1]
      constructor
      · intro e
        have := congrArg List.length e
        simp at this
      · intro e
        simp at e
  · rw [h1, h2]
    simp

/-- C9 (counterexample): `a\n` and `a` are not duplicates with no skipping,
and the input made of the line `a\n` followed by the unterminated line `a`
gives two runs of count 1, not one run of count 2. -/
theorem terminator_counterexample :
    are_duplicates ['a', '\n'] ['a'] 0 0 = false ∧
    uniq_handed [['a', '\n'], ['a']] 0 0 0 = [([], 0), (['a', '\n'], 1), (['a'], 1)] ∧
    uniq_output [['a', '\n'], ['a']] 0 0 0 = [['a', '\n'], ['a']] := by
  decide

/-- C9 (amended): the comparison is byte-exact and the terminator takes part
in it.  For every string `s` (in particular every newline-free one) and all
skip counts, `are_duplicates (s + "\n") s` is true if and only if the
comparison key of `s + "\n"` is empty (the skipping has consumed the whole
line, terminator included); whenever that key is not empty, the input made
of `s + "\n"` followed by the unterminated `s` gives two runs of count 1. -/
theorem terminator_takes_part_in_comparison (s : Line) (f c : Nat) :
    (are_duplicates (s ++ ['\n']) s f c = true ↔ comparison_key (s ++ ['\n']) f c = []) ∧
    (comparison_key (s ++ ['\n']) f c ≠ [] →
      uniq_handed [s ++ ['\n'], s] f c 0 = [([], 0), (s ++ ['\n'], 1), (s, 1)] ∧
      uniq_output [s ++ ['\n'], s] f c 0 = [s ++ ['\n'], s]) := by
  have hnl : isblank '\n' = false := by decide
  have hiff := comparison_key_append_nonblank '\n' hnl s f c
  refine ⟨by rw [are_duplicates_iff]; exact hiff, ?_⟩
  intro hk
  have h1 : are_duplicates (s ++ ['\n']) [] f c = false := by
    rw [are_duplicates_eq_false_iff, comparison_key_nil]
    exact hk
  have h2 : are_duplicates s (s ++ ['\n']) f c = false := by
    rw [are_duplicates_eq_false_iff]
    intro e
    exact hk (hiff.mp e.symm)
  have hh : uniq_handed [s ++ ['\n'], s] f c 0 = [([], 0), (s ++ ['\n'], 1), (s, 1)] := by
    rw [uniq_handed_eq]
    simp only [pending_calls, h1, h2, Bool.false_eq_true, if_false]
  refine ⟨hh, ?_⟩
  rw [uniq_output_default, closed_runs, hh]
  simp [List.filter_cons]

/-- Witness of C9 (amended): with no skipping the key of `a\n` is not empty,
so `a\n` and `a` are not duplicates and form two runs; with `chars = 5` the
key is empty and they are duplicates. -/
theorem terminator_takes_part_in_comparison_witness :
    comparison_key (['a'] ++ ['\n']) 0 0 ≠ [] ∧
    uniq_output [['a'] ++ ['\n'], ['a']] 0 0 0 = [['a'] ++ ['\n'], ['a']] ∧
    are_duplicates (['a'] ++ ['\n']) ['a'] 0 5 = true :=
  ⟨by decide,
    ((terminator_takes_part_in_comparison ['a'] 0 0).2 (by decide)).2,
    (terminator_takes_part_in_comparison ['a'] 0 5).1.mpr (by decide)⟩

/-! ## Number of records in default mode -/

theorem pending_closed_length_le (f c : Nat) (lines : List Line) :
    ∀ (prev : Line) (count : Nat),
      ((pending_calls f c prev count lines).filter (fun r => decide (r.2 ≠ 0))).length
        ≤ lines.length + (if count = 0 then 0 else 1) := by
  induction lines with
  | nil =>
    intro prev count
    by_cases h : count = 0 <;> simp [pending_calls, List.filter_cons, h]
  | cons cur rest ih =>
    intro prev count
    by_cases hd : are_duplicates cur prev f c = true
    · rw [pending_calls, if_pos hd]
      have := ih prev ((count + 1) % UINTMAX_MOD)
      simp only [List.length_cons]
      split_ifs at this ⊢ <;> omega
    · rw [pending_calls, if_neg hd]
      have h1 := ih cur 1
      simp only [Nat.one_ne_zero, if_false] at h1
      by_cases h : count = 0
      · subst h
        rw [closed_filter_cons_zero]
        simp only [List.length_cons, if_true]
        omega
      · rw [closed_filter_cons _ _ _ h]
        simp only [List.length_cons, h, if_false]
        omega

theorem pending_closed_length_eq (f c : Nat) (lines : List Line) :
    ∀ (prev : Line) (count : Nat), count ≤ 1 →
      lines.Chain' (fun a b => are_duplicates b a f c = false) →
      (∀ l, lines.head? = some l → count = 1 → are_duplicates l prev f c = false) →
      ((pending_calls f c prev count lines).filter (fun r => decide (r.2 ≠ 0))).length
        = lines.length + count := by
  induction lines with
  | nil =>
    intro prev count hc _ _
    by_cases h : count = 0
    · simp [pending_calls, List.filter_cons, h]
    · have : count = 1 := by omega
      simp [pending_calls, List.filter_cons, this]
  | cons cur rest ih =>
    intro prev count hc hch hhead
    have hrest : rest.Chain' (fun a b => are_duplicates b a f c = false) := hch.tail
    have hnext : ∀ l, rest.head? = some l → are_duplicates l cur f c = false :=
      fun l hl => hch.rel_head? hl
    by_cases hd : are_duplicates cur prev f c = true
    · have h0 : count = 0 := by
        by_contra h
        have h1 : count = 1 := by omega
        have := hhead cur rfl h1
        rw [hd] at this
        exact Bool.noConfusion this
      subst h0
      have hm : (0 + 1) % UINTMAX_MOD = 1 := by decide
      rw [pending_calls, if_pos hd, hm, ih prev 1 (le_refl _) hrest]
      · simp only [List.length_cons]
      · intro l hl _
        have h1 := hnext l hl
        rw [are_duplicates_eq_false_iff] at h1 ⊢
        rw [are_duplicates_iff] at hd
        rw [← hd]
        exact h1
    · rw [pending_calls, if_neg hd]
      have h1 := ih cur 1 (le_refl _) hrest (fun l hl _ => hnext l hl)
      by_cases h : count = 0
      · subst h
        rw [closed_filter_cons_zero, h1]
        simp only [List.length_cons]
      · rw [closed_filter_cons _ _ _ h]
        simp only [List.length_cons, h1]
        omega

/-- On records: in default mode the number of records written is at most the number
of input lines, and it is equal to it when no input line is a duplicate of
the line just before it. -/
theorem default_output_length (lines : List Line) (f c : Nat) :
    (uniq_output lines f c 0).length ≤ lines.length ∧
    (lines.Chain' (fun a b => are_duplicates b a f c = false) →
      (uniq_output lines f c 0).length = lines.length) := by
  rw [uniq_output_default, closed_runs_eq, List.length_map]
  constructor
  · simpa using pending_closed_length_le f c lines [] 0
  · intro h
    simpa using pending_closed_length_eq f c lines [] 0 (Nat.zero_le _) h
      (fun _ _ h0 => absurd h0 (by decide))

/-- Example on records: on `a\n b\n a\n` no line is a duplicate of the line
before it and three records are written. -/
theorem default_output_length_witness :
    [['a', '\n'], ['b', '\n'], ['a', '\n']].Chain'
      (fun a b => are_duplicates b a 0 0 = false) ∧
    (uniq_output [['a', '\n'], ['b', '\n'], ['a', '\n']] 0 0 0).length = 3 :=
  have h : [['a', '\n'], ['b', '\n'], ['a', '\n']].Chain'
      (fun a b => are_duplicates b a 0 0 = false) :=
    List.chain'_cons.2 ⟨by decide, List.chain'_cons.2 ⟨by decide, List.chain'_singleton _⟩⟩
  ⟨h, (default_output_length [['a', '\n'], ['b', '\n'], ['a', '\n']] 0 0).2 h⟩

/-! ## Empty input -/

theorem print_line_zero (out : List Line) (line : Line) (flags : Nat) :
    print_line out line 0 flags = out := by
  simp [print_line]

theorem uniq_of_streams_open (env : Env) (input output : Line) (fields chars flags : Nat)
    (hin : input = dash ∨ env.fopen_read input = true)
    (hout : output = dash ∨ env.fopen_write output = true) :
    uniq env input output fields chars flags =
      { status := 0
        written := (uniq_loop env.lines fields chars flags).out
        reported := []
        lines_read := env.lines.length
        open_handles :=
          ((if output ≠ dash then
              Handle.output_file ::
                (if input ≠ dash then Handle.input_file :: initial_handles else initial_handles)
            else (if input ≠ dash then Handle.input_file :: initial_handles
              else initial_handles)).erase
            (if output ≠ dash then Handle.output_file else Handle.std_out)).erase
            (if input ≠ dash then Handle.input_file else Handle.std_in) } := by
  have h1 : (decide (input ≠ dash) && !env.fopen_read input) = false := by
    rcases hin with h | h <;> simp [h]
  have h2 : (decide (output ≠ dash) && !env.fopen_write output) = false := by
    rcases hout with h | h <;> simp [h]
  unfold uniq
  simp only [h1, h2, Bool.false_eq_true, if_false, decide_eq_true_eq]

/-- C12: on an input of zero lines, whatever the flags and the skip counts,
`uniq` (with its two streams open) writes no record, reports nothing and
returns 0; the loop starts from the empty buffer with count 0, its only call
of `print_line` is the final one with that buffer and count 0, and a call of
`print_line` with count 0 never writes. -/
theorem empty_input_writes_nothing (env : Env) (input output : Line)
    (fields chars flags : Nat) (hempty : env.lines = [])
    (hin : input = dash ∨ env.fopen_read input = true)
    (hout : output = dash ∨ env.fopen_write output = true) :
    (uniq env input output fields chars flags).status = 0 ∧
    (uniq env input output fields chars flags).written = [] ∧
    (uniq env input output fields chars flags).reported = [] ∧
    uniq_output [] fields chars flags = [] ∧
    uniq_text [] fields chars flags = [] ∧
    uniq_init.count = 0 ∧ uniq_init.prev = [] ∧
    uniq_handed [] fields chars flags = [([], 0)] ∧
    (∀ (out : List Line) (line : Line), print_line out line 0 flags = out) := by
  have ho : uniq_output [] fields chars flags = [] := by
    simp [uniq_output, uniq_loop, uniq_init, print_line_zero]
  have hu := uniq_of_streams_open env input output fields chars flags hin hout
  refine ⟨by rw [hu], ?_, by rw [hu], ho, by rw [uniq_text, ho]; rfl, rfl, rfl, ?_,
    fun out line => print_line_zero out line flags⟩
  · rw [hu]
    show (uniq_loop env.lines fields chars flags).out = []
    rw [hempty]
    exact ho
  · simp [uniq_handed, uniq_loop, uniq_init]

/-- Witness of C12 (spec example 6): empty standard input, output to the file
`o`, flags `-c -d` and skip counts 2 and 3: status 0 and nothing written. -/
theorem empty_input_writes_nothing_witness :
    (uniq ⟨fun _ => true, fun _ => true, []⟩ dash ['o'] 2 3 3).status = 0 ∧
    (uniq ⟨fun _ => true, fun _ => true, []⟩ dash ['o'] 2 3 3).written = [] :=
  have h := empty_input_writes_nothing ⟨fun _ => true, fun _ => true, []⟩ dash ['o'] 2 3 3
    rfl (Or.inl rfl) (Or.inr rfl)
  ⟨h.1, h.2.1⟩

/-! ## Operands of `main` -/

/-- C13: operand resolution in `main`.  More than two operands: exit status 1
and no call of `uniq`.  Otherwise, with `input` the first operand or `"-"`
and `output` the second operand or `"-"`: `main` exits 1 without calling
`uniq` if and only if both are `"-"` (so for no operand and for the single
operand `"-"`); in every other case, two identical paths other than `"-"`
included, `main` calls `uniq` with these two paths and returns its status. -/
theorem main_operand_resolution (env : Env) (operands : List Line)
    (fields chars flags : Nat) :
    (2 < operands.length → main env operands fields chars flags = ⟨1, none⟩) ∧
    (operands.length ≤ 2 →
      (((main env operands fields chars flags).status = 1 ∧
          (main env operands fields chars flags).engine_call = none) ↔
        (operands.getD 0 dash = dash ∧ operands.getD 1 dash = dash)) ∧
      (¬ (operands.getD 0 dash = dash ∧ operands.getD 1 dash = dash) →
        main env operands fields chars flags =
          ⟨(uniq env (operands.getD 0 dash) (operands.getD 1 dash) fields chars flags).status,
            some (operands.getD 0 dash, operands.getD 1 dash)⟩)) ∧
    main env [] fields chars flags = ⟨1, none⟩ ∧
    main env [dash] fields chars flags = ⟨1, none⟩ ∧
    (∀ p : Line, p ≠ dash →
      main env [p, p] fields chars flags
        = ⟨(uniq env p p fields chars flags).status, some (p, p)⟩) := by
  refine ⟨?_, ?_, by simp [main], by simp [main], ?_⟩
  · intro h
    simp [main, h]
  · intro h
    rcases operands with _ | ⟨a, _ | ⟨b, _ | ⟨c, rest⟩⟩⟩
    · simp [main]
    · by_cases ha : a = dash
      · simp [main, ha]
      · simp [main, ha]
    · by_cases ha : a = dash <;> by_cases hb : b = dash
      · simp [main, ha, hb]
      · have hb' : ¬ dash = b := fun e => hb e.symm
        simp [main, ha, hb, hb']
      · simp [main, ha, hb]
      · simp [main, ha, hb]
    · simp at h
  · intro p hp
    simp [main, hp]

/-- Witness of C13: the operands `-` and `o` are not both `"-"`, and `main`
calls `uniq` with them and returns its status, here 0. -/
theorem main_operand_resolution_witness :
    [dash, ['o']].length ≤ 2 ∧
    main ⟨fun _ => true, fun _ => true, []⟩ [dash, ['o']] 0 0 0 = ⟨0, some (dash, ['o'])⟩ :=
  ⟨by decide,
    (((main_operand_resolution ⟨fun _ => true, fun _ => true, []⟩ [dash, ['o']] 0 0 0).2.1
      (by decide)).2 (by decide)).trans (by decide)⟩

/-! ## Handles -/

theorem uniq_open_handles (env : Env) (input output : Line) (fields chars flags : Nat) :
    (Handle.input_file ∈ (uniq env input output fields chars flags).open_handles ↔
      (input ≠ dash ∧ env.fopen_read input = true ∧
        output ≠ dash ∧ env.fopen_write output = false)) ∧
    Handle.output_file ∉ (uniq env input output fields chars flags).open_handles := by
  by_cases hi : input = dash <;> by_cases ho : output = dash <;>
    cases hr : env.fopen_read input <;> cases hw : env.fopen_write output <;>
    simp [uniq, hi, ho, hr, hw, initial_handles]

/-- C14 (evaluation at the failing input): the input path `in` opens, the
output path `out` does not.  `uniq` returns 1 having read no line and written
nothing, and the handle it got for the input is still open.  In general the
input handle is left open exactly when `fopen` was called for both paths,
succeeded for the input and failed for the output; on all other paths no
handle that `uniq` opened is open on return. -/
theorem output_open_failure_leaks_input :
    (uniq ⟨fun _ => true, fun _ => false, [['a', '\n']]⟩ ['i', 'n'] ['o', 'u', 't'] 0 0 0).status
      = 1 ∧
    (uniq ⟨fun _ => true, fun _ => false, [['a', '\n']]⟩ ['i', 'n'] ['o', 'u', 't'] 0 0 0).lines_read
      = 0 ∧
    (uniq ⟨fun _ => true, fun _ => false, [['a', '\n']]⟩ ['i', 'n'] ['o', 'u', 't'] 0 0 0).written
      = [] ∧
    Handle.input_file ∈
      (uniq ⟨fun _ => true, fun _ => false, [['a', '\n']]⟩ ['i', 'n'] ['o', 'u', 't'] 0 0
        0).open_handles ∧
    (∀ (env : Env) (input output : Line) (fields chars flags : Nat),
      (Handle.input_file ∈ (uniq env input output fields chars flags).open_handles ↔
        (input ≠ dash ∧ env.fopen_read input = true ∧
          output ≠ dash ∧ env.fopen_write output = false)) ∧
      Handle.output_file ∉ (uniq env input output fields chars flags).open_handles) :=
  ⟨by decide, by decide, by decide, by decide, uniq_open_handles⟩

/-! ## Leading lines with an empty key -/

theorem pending_calls_leading_empty (f c : Nat) (lines : List Line) :
    ∀ count : Nat, count + lines.length < UINTMAX_MOD →
      pending_calls f c [] count lines =
        ([], count + (lines.takeWhile (has_empty_key f c)).length)
          :: (pending_calls f c [] 0 (lines.dropWhile (has_empty_key f c))).tail := by
  induction lines with
  | nil => intro count _; rfl
  | cons cur rest ih =>
    intro count hb
    simp only [List.length_cons] at hb
    by_cases hk : comparison_key cur f c = []
    · have hd : are_duplicates cur [] f c = true := by
        rw [are_duplicates_iff, comparison_key_nil]; exact hk
      have he : has_empty_key f c cur = true := by simp [has_empty_key, hk]
      have hm : (count + 1) % UINTMAX_MOD = count + 1 := Nat.mod_eq_of_lt (by omega)
      rw [pending_calls, if_pos hd, hm, ih (count + 1) (by omega),
        List.takeWhile_cons_of_pos he, List.dropWhile_cons_of_pos he, List.length_cons]
      congr 2
      omega
    · have hd : ¬ are_duplicates cur [] f c = true := by
        rw [are_duplicates_iff, comparison_key_nil]; exact hk
      have he : ¬ has_empty_key f c cur = true := by simp [has_empty_key, hk]
      rw [pending_calls, if_neg hd, List.takeWhile_cons_of_neg he,
        List.dropWhile_cons_of_neg he, pending_calls, if_neg hd]
      rfl

theorem pending_calls_head_zero (f c : Nat) (t : List Line)
    (h : ∀ l, t.head? = some l → has_empty_key f c l = false) :
    pending_calls f c [] 0 t = ([], 0) :: (pending_calls f c [] 0 t).tail := by
  cases t with
  | nil => rfl
  | cons cur rest =>
    have hk : comparison_key cur f c ≠ [] := by
      have := h cur rfl
      simpa [has_empty_key] using this
    have hd : ¬ are_duplicates cur [] f c = true := by
      rw [are_duplicates_iff, comparison_key_nil]; exact hk
    rw [pending_calls, if_neg hd]
    rfl

theorem dropWhile_empty_key_head (f c : Nat) (lines : List Line) :
    ∀ l, (lines.dropWhile (has_empty_key f c)).head? = some l → has_empty_key f c l = false := by
  intro l hl
  have h := List.head?_dropWhile_not (has_empty_key f c) lines
  rw [hl] at h
  exact h

theorem uniq_output_leading_empty (f c flags : Nat) (lines : List Line)
    (hlen : lines.length < UINTMAX_MOD) :
    uniq_output lines f c flags =
      print_line [] [] (lines.takeWhile (has_empty_key f c)).length flags
        ++ uniq_output (lines.dropWhile (has_empty_key f c)) f c flags := by
  rw [uniq_output_eq, uniq_output_eq, pending_calls_leading_empty f c lines 0 (by omega),
    pending_calls_head_zero f c _ (dropWhile_empty_key_head f c lines)]
  simp [List.flatMap_cons, print_line_zero]

/-- C16: when the first line of the input has an empty comparison key, it is
a duplicate of the empty initial buffer.  The first run handed to
`print_line` has the empty string as its representative, and its count is the
number of leading lines whose key is empty (at least 1); the calls that
follow are those of a run of `uniq` on the remaining lines.  In default mode
the leading lines give one empty record, so that the text written is the text
written for the remaining lines alone; with `-c` they give the record made of
the decimal count and one space, with no line after it.  The input has fewer
than `2 ^ 64` lines, so that `uintmax_t count` does not wrap. -/
theorem empty_first_key_joins_initial_buffer (l0 : Line) (rest : List Line) (f c : Nat)
    (hkey : comparison_key l0 f c = [])
    (hlen : (l0 :: rest).length < UINTMAX_MOD) :
    are_duplicates l0 [] f c = true ∧
    1 ≤ ((l0 :: rest).takeWhile (has_empty_key f c)).length ∧
    (∀ flags : Nat, uniq_handed (l0 :: rest) f c flags =
      ([], ((l0 :: rest).takeWhile (has_empty_key f c)).length)
        :: (uniq_handed ((l0 :: rest).dropWhile (has_empty_key f c)) f c flags).tail) ∧
    uniq_output (l0 :: rest) f c 0 =
      [] :: uniq_output ((l0 :: rest).dropWhile (has_empty_key f c)) f c 0 ∧
    uniq_text (l0 :: rest) f c 0 =
      uniq_text ((l0 :: rest).dropWhile (has_empty_key f c)) f c 0 ∧
    uniq_output (l0 :: rest) f c COUNT =
      (decimal ((l0 :: rest).takeWhile (has_empty_key f c)).length ++ [' '])
        :: uniq_output ((l0 :: rest).dropWhile (has_empty_key f c)) f c COUNT := by
  have he : has_empty_key f c l0 = true := by simp [has_empty_key, hkey]
  have hk : 1 ≤ ((l0 :: rest).takeWhile (has_empty_key f c)).length := by
    rw [List.takeWhile_cons_of_pos he, List.length_cons]
    omega
  have hk0 : ((l0 :: rest).takeWhile (has_empty_key f c)).length ≠ 0 := by omega
  have hdef : uniq_output (l0 :: rest) f c 0 =
      [] :: uniq_output ((l0 :: rest).dropWhile (has_empty_key f c)) f c 0 := by
    rw [uniq_output_leading_empty f c 0 _ hlen, print_line_default, if_pos hk0]
    rfl
  refine ⟨?_, hk, ?_, hdef, ?_, ?_⟩
  · rw [are_duplicates_iff, comparison_key_nil]; exact hkey
  · intro flags
    rw [uniq_handed_eq, uniq_handed_eq, pending_calls_leading_empty f c _ 0 (by omega),
      Nat.zero_add]
  · rw [uniq_text, hdef, uniq_text]
    rfl
  · rw [uniq_output_leading_empty f c COUNT _ hlen, print_line_count, if_pos hk0]
    simp

/-- Witness of C16: on the single line `a\n` with `chars = 5` the run handed
to `print_line` is `("", 1)`; default mode writes an empty record (no text)
and `-c` writes `1 ` with nothing after it. -/
theorem empty_first_key_joins_initial_buffer_witness :
    comparison_key ['a', '\n'] 0 5 = [] ∧
    uniq_handed [['a', '\n']] 0 5 0 = [([], 1)] ∧
    uniq_text [['a', '\n']] 0 5 0 = [] ∧
    uniq_output [['a', '\n']] 0 5 COUNT = [['1', ' ']] :=
  have h := empty_first_key_joins_initial_buffer ['a', '\n'] [] 0 5 (by decide) (by decide)
  ⟨by decide, (h.2.2.1 0).trans (by decide), h.2.2.2.2.1.trans (by decide),
    h.2.2.2.2.2.trans (by decide)⟩

/-! ## Counts of the runs -/

theorem maximal_runs_lengths_sum (f c : Nat) (lines : List Line) :
    ((maximal_runs f c lines).map (fun g => g.2.length + 1)).sum = lines.length := by
  induction lines with
  | nil => rfl
  | cons l rest ih =>
    rw [maximal_runs]
    rcases h : maximal_runs f c rest with _ | ⟨⟨r, others⟩, runs⟩
    · rw [h] at ih
      simp only [List.map_nil, List.sum_nil] at ih
      simp [← ih]
    · rw [h] at ih
      simp only [List.map_cons, List.sum_cons] at ih
      by_cases hd : are_duplicates l r f c = true
      · simp only [hd, if_true, List.map_cons, List.sum_cons, List.length_cons]
        omega
      · simp only [hd, Bool.false_eq_true, if_false, List.map_cons, List.sum_cons,
          List.length_cons, List.length_nil]
        omega

theorem run_summary_counts (gs : List (Line × List Line)) :
    (gs.map run_summary).map Prod.snd = gs.map (fun g => g.2.length + 1) := by
  simp [run_summary, Function.comp_def]

theorem run_summary_pos (gs : List (Line × List Line)) :
    ∀ r ∈ gs.map run_summary, 1 ≤ r.2 := by
  intro r hr
  obtain ⟨g, _, rfl⟩ := List.mem_map.mp hr
  simp [run_summary]

/-- C15 (counterexample): on the single line `a\n`, the round of the loop
that processes this line, just read by `fgets`, calls `print_line` with the
initial buffer and count 0; the calls of the run are `("", 0)` and then
`("a\n", 1)`. -/
theorem initial_buffer_flush_counterexample :
    (uniq_step 0 0 0 uniq_init ['a', '\n']).handed = [([], 0)] ∧
    uniq_handed [['a', '\n']] 0 0 0 = [([], 0), (['a', '\n'], 1)] ∧
    ¬ (∀ r ∈ uniq_handed [['a', '\n']] 0 0 0, 1 ≤ r.2) := by
  decide

/-- C15 (amended): every call of `print_line` after the first one has a count
of at least 1; the first call is made with the initial buffer `""`, and its
count is 0 exactly when the input is empty or its first line is not a
duplicate of the empty buffer (`print_line` writes nothing then); on a
non-empty input the last call has a count of at least 1.  The counts of all
the calls, and so the counts of the closed runs (those printed by `-c`), add
up to the number of lines read.  The input has fewer than `2 ^ 64` lines, so
that `uintmax_t count` does not wrap. -/
theorem run_counts_conserved (lines : List Line) (f c flags : Nat)
    (hlen : lines.length < UINTMAX_MOD) :
    (∀ r ∈ (uniq_handed lines f c flags).tail, 1 ≤ r.2) ∧
    (∃ c0, (uniq_handed lines f c flags).head? = some ([], c0) ∧
      (c0 = 0 ↔ ∀ l, lines.head? = some l → are_duplicates l [] f c = false)) ∧
    (lines ≠ [] → ∀ r, (uniq_handed lines f c flags).getLast? = some r → 1 ≤ r.2) ∧
    ((uniq_handed lines f c flags).map Prod.snd).sum = lines.length ∧
    (∀ r ∈ closed_runs lines f c, 1 ≤ r.2) ∧
    ((closed_runs lines f c).map Prod.snd).sum = lines.length := by
  have hclosed : ∀ r ∈ closed_runs lines f c, 1 ≤ r.2 := by
    intro r hr
    have h0 : r.2 ≠ 0 := by simpa using (List.mem_filter.mp hr).2
    omega
  have hsum : ((closed_runs lines f c).map Prod.snd).sum = lines.length := by
    rw [closed_runs_counts lines f c hlen, maximal_runs_lengths_sum]
  have hsumruns := maximal_runs_lengths_sum f c lines
  rw [uniq_handed_eq, pending_calls_eq_merge f c lines [] 0 (by omega)]
  cases lines with
  | nil =>
    refine ⟨?_, ⟨0, rfl, by simp⟩, fun h => absurd rfl h, rfl, hclosed, hsum⟩
    intro r hr
    simp [maximal_runs, merge_first] at hr
  | cons l0 rest =>
    obtain ⟨others, gs, hruns⟩ := maximal_runs_cons_shape f c l0 rest
    rw [hruns] at hsumruns ⊢
    simp only [List.map_cons, List.sum_cons] at hsumruns
    by_cases hd : are_duplicates l0 [] f c = true
    · simp only [merge_first, hd, if_true, Nat.zero_add]
      refine ⟨?_, ⟨others.length + 1, rfl, by simp [hd]⟩, ?_, ?_, hclosed, hsum⟩
      · intro r hr
        exact run_summary_pos gs r hr
      · intro _ r hr
        rcases List.mem_cons.mp (List.mem_of_getLast?_eq_some hr) with rfl | hmem
        · simp
        · exact run_summary_pos gs r hmem
      · simp only [List.map_cons, List.sum_cons, run_summary_counts]
        exact hsumruns
    · have hd' : are_duplicates l0 [] f c = false := by simpa using hd
      simp only [merge_first, hd', Bool.false_eq_true, if_false]
      refine ⟨?_, ⟨0, rfl, by simp [hd']⟩, ?_, ?_, hclosed, hsum⟩
      · intro r hr
        exact run_summary_pos ((l0, others) :: gs) r hr
      · intro _ r hr
        rw [List.map_cons, List.getLast?_cons_cons] at hr
        exact run_summary_pos ((l0, others) :: gs) r (List.mem_of_getLast?_eq_some hr)
      · simp only [List.map_cons, List.sum_cons, run_summary_counts, run_summary, Nat.zero_add]
        exact hsumruns

/-- Witness of C15 (amended): on `a\n a\n b\n` the calls are `("", 0)`,
`("a\n", 2)` and `("b\n", 1)`: the counts after the first call are at least
1 and add up to 3. -/
theorem run_counts_conserved_witness :
    [['a', '\n'], ['a', '\n'], ['b', '\n']].length < UINTMAX_MOD ∧
    uniq_handed [['a', '\n'], ['a', '\n'], ['b', '\n']] 0 0 1
      = [([], 0), (['a', '\n'], 2), (['b', '\n'], 1)] ∧
    ((uniq_handed [['a', '\n'], ['a', '\n'], ['b', '\n']] 0 0 1).map Prod.snd).sum = 3 :=
  ⟨by decide, by decide,
    (run_counts_conserved [['a', '\n'], ['a', '\n'], ['b', '\n']] 0 0 1 (by decide)).2.2.2.1⟩

/-! ## Idempotence of the default mode -/

theorem pending_calls_of_chain (f c : Nat) (ls : List Line) :
    ∀ prev : Line, ls.Chain' (fun a b => are_duplicates b a f c = false) →
      (∀ l, ls.head? = some l → are_duplicates l prev f c = false) →
      pending_calls f c prev 1 ls = (prev, 1) :: ls.map (fun l => (l, 1)) := by
  induction ls with
  | nil => intro prev _ _; rfl
  | cons cur rest ih =>
    intro prev hch hhead
    have hd : ¬ are_duplicates cur prev f c = true := by simp [hhead cur rfl]
    rw [pending_calls, if_neg hd, ih cur hch.tail (fun l hl => hch.rel_head? hl)]
    rfl

theorem uniq_output_of_chain (f c : Nat) (ls : List Line)
    (hch : ls.Chain' (fun a b => are_duplicates b a f c = false)) :
    uniq_output ls f c 0 = blank_first f c ls := by
  rw [uniq_output_default, closed_runs_eq]
  cases ls with
  | nil => simp [pending_calls, blank_first]
  | cons l0 rest =>
    have hone : ∀ (p : Line) (ms : List Line),
        (((p, 1) :: ms.map (fun l => (l, 1))).filter
          (fun r : Line × Nat => decide (r.2 ≠ 0))).map Prod.fst = p :: ms := by
      intro p ms
      rw [List.filter_eq_self.mpr]
      · simp [Function.comp_def]
      · intro r hr
        rcases List.mem_cons.mp hr with rfl | hr
        · simp
        · obtain ⟨l, _, rfl⟩ := List.mem_map.mp hr
          simp
    by_cases hk : comparison_key l0 f c = []
    · have hd : are_duplicates l0 [] f c = true := by
        rw [are_duplicates_iff, comparison_key_nil]; exact hk
      have hm : (0 + 1) % UINTMAX_MOD = 1 := by decide
      rw [pending_calls, if_pos hd, hm, pending_calls_of_chain f c rest [] hch.tail, hone,
        blank_first, if_pos hk]
      intro l hl
      have h1 := hch.rel_head? hl
      rw [are_duplicates_eq_false_iff] at h1 ⊢
      rw [comparison_key_nil, ← hk]
      exact h1
    · have hd : ¬ are_duplicates l0 [] f c = true := by
        rw [are_duplicates_iff, comparison_key_nil]; exact hk
      rw [pending_calls, if_neg hd, closed_filter_cons_zero,
        pending_calls_of_chain f c rest l0 hch.tail (fun l hl => hch.rel_head? hl), hone,
        blank_first, if_neg hk]

theorem uniq_output_default_form (lines : List Line) (f c : Nat)
    (hlen : lines.length < UINTMAX_MOD) :
    uniq_output lines f c 0 = blank_first f c ((maximal_runs f c lines).map Prod.fst) := by
  rw [uniq_output_default, closed_runs_eq_maximal lines f c hlen]
  rcases maximal_runs f c lines with _ | ⟨g, gs⟩
  · rfl
  · simp [run_summary, Function.comp_def, blank_first]

theorem maximal_runs_firsts_chain (f c : Nat) (lines : List Line) :
    ((maximal_runs f c lines).map Prod.fst).Chain'
      (fun a b => are_duplicates b a f c = false) := by
  rw [List.chain'_map]
  refine (maximal_runs_adjacent_differ f c lines).imp ?_
  intro g h hgh
  rw [are_duplicates_eq_false_iff]
  exact fun e => hgh e.symm

theorem maximal_runs_first_mem (f c : Nat) (lines : List Line) :
    ∀ g ∈ maximal_runs f c lines, g.1 ∈ lines := by
  intro g hg
  have h := maximal_runs_flatten f c lines
  rw [← h]
  exact List.mem_flatMap.mpr ⟨g, hg, List.mem_cons_self _ _⟩

theorem blank_first_chain (f c : Nat) (ls : List Line)
    (hch : ls.Chain' (fun a b => are_duplicates b a f c = false)) :
    (blank_first f c ls).Chain' (fun a b => are_duplicates b a f c = false) := by
  cases ls with
  | nil => exact hch
  | cons l0 rest =>
    by_cases hk : comparison_key l0 f c = []
    · rw [blank_first, if_pos hk]
      rw [List.chain'_cons'] at hch ⊢
      refine ⟨?_, hch.2⟩
      intro y hy
      have h1 := hch.1 y hy
      rw [are_duplicates_eq_false_iff] at h1 ⊢
      rw [comparison_key_nil, ← hk]
      exact h1
    · rw [blank_first, if_neg hk]
      exact hch

theorem blank_first_idem (f c : Nat) (ls : List Line) :
    blank_first f c (blank_first f c ls) = blank_first f c ls := by
  cases ls with
  | nil => rfl
  | cons l0 rest =>
    by_cases hk : comparison_key l0 f c = []
    · simp [blank_first, hk, comparison_key_nil]
    · simp [blank_first, hk]

theorem filter_nonempty_self (ls : List Line) (h : ∀ l ∈ ls, l ≠ []) :
    ls.filter (fun r => !r.isEmpty) = ls := by
  apply List.filter_eq_self.mpr
  intro a ha
  cases a with
  | nil => exact absurd rfl (h [] ha)
  | cons x xs => rfl

theorem blank_first_filter (f c : Nat) (ls : List Line) (h : ∀ l ∈ ls, l ≠ [])
    (hch : ls.Chain' (fun a b => are_duplicates b a f c = false)) :
    blank_first f c ((blank_first f c ls).filter (fun r => !r.isEmpty))
      = (blank_first f c ls).filter (fun r => !r.isEmpty) ∧
    ((blank_first f c ls).filter (fun r => !r.isEmpty)).Chain'
      (fun a b => are_duplicates b a f c = false) := by
  cases ls with
  | nil => exact ⟨rfl, List.chain'_nil⟩
  | cons l0 rest =>
    have hrest : rest.filter (fun r => !r.isEmpty) = rest :=
      filter_nonempty_self rest (fun l hl => h l (List.mem_cons_of_mem _ hl))
    have hl0 : (l0 :: rest).filter (fun r => !r.isEmpty) = l0 :: rest := filter_nonempty_self _ h
    by_cases hk : comparison_key l0 f c = []
    · have hf : (blank_first f c (l0 :: rest)).filter (fun r => !r.isEmpty) = rest := by
        rw [blank_first, if_pos hk, List.filter_cons_of_neg (by simp), hrest]
      rw [hf]
      refine ⟨?_, hch.tail⟩
      cases rest with
      | nil => rfl
      | cons r1 rest1 =>
        have h1 := hch.rel_head? (rfl : (r1 :: rest1).head? = some r1)
        rw [are_duplicates_eq_false_iff, hk] at h1
        rw [blank_first, if_neg h1]
    · have hf : (blank_first f c (l0 :: rest)).filter (fun r => !r.isEmpty) = l0 :: rest := by
        rw [blank_first, if_neg hk, hl0]
      rw [hf]
      exact ⟨by rw [blank_first, if_neg hk], hch⟩

/-- C11: idempotence of the default mode.  For all skip counts, a run of the
engine on the records written by a run on `lines` writes these records again,
and so the same text.  The same holds when the second run is given only the
records that are not empty (the lines that can be read back from the text
written), for an input whose lines are not empty.  The input has fewer than
`2 ^ 64` lines, so that `uintmax_t count` does not wrap. -/
theorem default_mode_idempotent (lines : List Line) (f c : Nat)
    (hlen : lines.length < UINTMAX_MOD) :
    uniq_output (uniq_output lines f c 0) f c 0 = uniq_output lines f c 0 ∧
    uniq_text (uniq_output lines f c 0) f c 0 = uniq_text lines f c 0 ∧
    ((∀ l ∈ lines, l ≠ []) →
      uniq_output ((uniq_output lines f c 0).filter (fun r => !r.isEmpty)) f c 0
        = (uniq_output lines f c 0).filter (fun r => !r.isEmpty) ∧
      uniq_text ((uniq_output lines f c 0).filter (fun r => !r.isEmpty)) f c 0
        = uniq_text lines f c 0) := by
  have hform := uniq_output_default_form lines f c hlen
  have hchain := maximal_runs_firsts_chain f c lines
  have hfirst : uniq_output (uniq_output lines f c 0) f c 0 = uniq_output lines f c 0 := by
    rw [hform, uniq_output_of_chain _ _ _ (blank_first_chain f c _ hchain), blank_first_idem]
  refine ⟨hfirst, by rw [uniq_text, hfirst, uniq_text], ?_⟩
  intro hne
  have hfne : ∀ l ∈ (maximal_runs f c lines).map Prod.fst, l ≠ [] := by
    intro l hl
    obtain ⟨g, hg, rfl⟩ := List.mem_map.mp hl
    exact hne g.1 (maximal_runs_first_mem f c lines g hg)
  have hb := blank_first_filter f c _ hfne hchain
  have hsecond : uniq_output ((uniq_output lines f c 0).filter (fun r => !r.isEmpty)) f c 0
      = (uniq_output lines f c 0).filter (fun r => !r.isEmpty) := by
    rw [hform, uniq_output_of_chain _ _ _ hb.2, hb.1]
  refine ⟨hsecond, ?_⟩
  rw [uniq_text, hsecond, List.flatten_filter_not_isEmpty, uniq_text]

/-- Witness of C11 on `1 a\n 2 a\n 3 b\n` with `fields = 1`: the first run
writes `1 a\n 3 b\n`, and a run on these two lines writes them again. -/
theorem default_mode_idempotent_witness :
    [['1', ' ', 'a', '\n'], ['2', ' ', 'a', '\n'], ['3', ' ', 'b', '\n']].length
      < UINTMAX_MOD ∧
    uniq_output [['1', ' ', 'a', '\n'], ['2', ' ', 'a', '\n'], ['3', ' ', 'b', '\n']] 1 0 0
      = [['1', ' ', 'a', '\n'], ['3', ' ', 'b', '\n']] ∧
    uniq_output
        (uniq_output [['1', ' ', 'a', '\n'], ['2', ' ', 'a', '\n'], ['3', ' ', 'b', '\n']]
          1 0 0) 1 0 0
      = [['1', ' ', 'a', '\n'], ['3', ' ', 'b', '\n']] :=
  have h := default_mode_idempotent
    [['1', ' ', 'a', '\n'], ['2', ' ', 'a', '\n'], ['3', ' ', 'b', '\n']] 1 0 (by decide)
  ⟨by decide, by decide, h.1.trans (by decide)⟩

/-! ## Lines longer than the buffer -/

theorem fgets_take_length (n : Nat) : ∀ s : List Char, (fgets_take n s).1.length ≤ n := by
  induction n with
  | zero => intro s; simp [fgets_take]
  | succ n ih =>
    intro s
    cases s with
    | nil => simp [fgets_take]
    | cons ch s =>
      by_cases h : ch = '\n'
      · simp [fgets_take, h]
      · simp only [fgets_take, h, if_false, List.length_cons]
        exact Nat.succ_le_succ (ih s)

theorem fgets_take_append (n : Nat) :
    ∀ s : List Char, (fgets_take n s).1 ++ (fgets_take n s).2 = s := by
  induction n with
  | zero => intro s; simp [fgets_take]
  | succ n ih =>
    intro s
    cases s with
    | nil => simp [fgets_take]
    | cons ch s =>
      by_cases h : ch = '\n'
      · simp [fgets_take, h]
      · simp only [fgets_take, h, if_false, List.cons_append, ih s]

theorem fgets_take_ne_nil (n : Nat) (ch : Char) (s : List Char) :
    (fgets_take (n + 1) (ch :: s)).1 ≠ [] := by
  by_cases h : ch = '\n' <;> simp [fgets_take, h]

theorem fgets_take_rest_length (n : Nat) (ch : Char) (s : List Char) :
    (fgets_take (n + 1) (ch :: s)).2.length ≤ s.length := by
  have h1 := fgets_take_append (n + 1) (ch :: s)
  have h2 := congrArg List.length h1
  have h3 : 1 ≤ (fgets_take (n + 1) (ch :: s)).1.length :=
    List.length_pos.mpr (fgets_take_ne_nil n ch s)
  simp only [List.length_append, List.length_cons] at h2
  omega

theorem fgets_take_exact (A : Line) (hA : '\n' ∉ A) :
    ∀ rest : List Char, fgets_take A.length (A ++ rest) = (A, rest) := by
  induction A with
  | nil => intro rest; simp [fgets_take]
  | cons a A ih =>
    intro rest
    have ha : a ≠ '\n' := fun e => hA (e ▸ List.mem_cons_self _ _)
    have hA' : '\n' ∉ A := fun e => hA (List.mem_cons_of_mem _ e)
    have hi := ih hA' rest
    simp only [List.length_cons, List.cons_append, fgets_take, ha, if_false]
    show (a :: (fgets_take A.length (A ++ rest)).1, (fgets_take A.length (A ++ rest)).2)
      = (a :: A, rest)
    rw [hi]

theorem read_lines_bounded (size : Nat) (hsize : 2 ≤ size) (fuel : Nat) :
    ∀ stream : List Char, ∀ l ∈ read_lines size fuel stream, l.length ≤ size - 1 ∧ l ≠ [] := by
  induction fuel with
  | zero => intro stream l hl; simp [read_lines] at hl
  | succ fuel ih =>
    intro stream l hl
    cases stream with
    | nil => simp [read_lines, fgets] at hl
    | cons ch s =>
      obtain ⟨n, hn⟩ : ∃ n, size - 1 = n + 1 := ⟨size - 2, by omega⟩
      simp only [read_lines, fgets, List.mem_cons] at hl
      rcases hl with rfl | hl
      · refine ⟨fgets_take_length _ _, ?_⟩
        rw [hn]
        exact fgets_take_ne_nil n ch s
      · exact ih _ l hl

theorem read_lines_flatten (size : Nat) (hsize : 2 ≤ size) (fuel : Nat) :
    ∀ stream : List Char, stream.length ≤ fuel →
      (read_lines size fuel stream).flatten = stream := by
  induction fuel with
  | zero =>
    intro stream h
    have : stream = [] := List.length_eq_zero.mp (by omega)
    subst this
    rfl
  | succ fuel ih =>
    intro stream h
    cases stream with
    | nil => simp [read_lines, fgets]
    | cons ch s =>
      obtain ⟨n, hn⟩ : ∃ n, size - 1 = n + 1 := ⟨size - 2, by omega⟩
      simp only [List.length_cons] at h
      have hrest := fgets_take_rest_length n ch s
      simp only [read_lines, fgets, List.flatten_cons]
      rw [ih _ (by rw [hn]; omega)]
      exact fgets_take_append _ _

theorem input_lines_two_chunks (size : Nat) (hsize : 2 ≤ size) (A : Line)
    (hlen : A.length = size - 1) (hnl : '\n' ∉ A) :
    input_lines size (A ++ A) = [A, A] := by
  obtain ⟨a, A', rfl⟩ : ∃ a A', A = a :: A' := by
    cases A with
    | nil => simp at hlen; omega
    | cons a A' => exact ⟨a, A', rfl⟩
  have hfuel : ((a :: A') ++ (a :: A')).length = (A'.length + A'.length) + 1 + 1 := by
    simp only [List.length_append, List.length_cons]
    omega
  have h1 : fgets size ((a :: A') ++ (a :: A')) = some (a :: A', a :: A') := by
    have := fgets_take_exact (a :: A') hnl (a :: A')
    rw [hlen] at this
    simp only [fgets, List.cons_append]
    rw [← List.cons_append, this]
  have h2 : fgets size (a :: A') = some (a :: A', []) := by
    have := fgets_take_exact (a :: A') hnl []
    rw [hlen, List.append_nil] at this
    simp only [fgets]
    rw [this]
  rw [input_lines, hfuel, read_lines, h1]
  simp only
  rw [read_lines, h2]
  simp only
  cases hk : A'.length + A'.length with
  | zero => rfl
  | succ k => simp [read_lines, fgets]

/-- C17: with `fgets(cur, LINE_MAX, in)` read as taking at most
`LINE_MAX - 1` characters, up to and including the first newline, and
`2 ≤ LINE_MAX`: every string that the loop reads has at most `LINE_MAX - 1`
characters and is not empty, and the strings read concatenate back to the
input, so that a line longer than `LINE_MAX - 1` characters is split into
consecutive chunks and each chunk is a line for the engine.  An input made of
two copies of a newline-free chunk of exactly `LINE_MAX - 1` characters is
read as two identical lines, and with no skipping and no flags one chunk is
written: half of the content of the line. -/
theorem long_lines_are_split (size : Nat) (hsize : 2 ≤ size) :
    (∀ stream : List Char,
      (∀ l ∈ input_lines size stream, l.length ≤ size - 1 ∧ l ≠ []) ∧
      (input_lines size stream).flatten = stream) ∧
    (∀ A : Line, A.length = size - 1 → '\n' ∉ A →
      input_lines size (A ++ A) = [A, A] ∧
      uniq_output (input_lines size (A ++ A)) 0 0 0 = [A] ∧
      uniq_text (input_lines size (A ++ A)) 0 0 0 = A ∧
      2 * (uniq_text (input_lines size (A ++ A)) 0 0 0).length = (A ++ A).length) := by
  refine ⟨fun stream => ⟨read_lines_bounded size hsize _ stream,
    read_lines_flatten size hsize _ stream (le_refl _)⟩, ?_⟩
  intro A hlen hnl
  have hlines := input_lines_two_chunks size hsize A hlen hnl
  have hout : uniq_output [A, A] 0 0 0 = [A] := by
    rw [uniq_output_identical [A, A] (by simp [UINTMAX_MOD]), List.destutter_pair]
    simp
  have htext : uniq_text [A, A] 0 0 0 = A := by
    rw [uniq_text, hout]
    simp
  rw [hlines]
  refine ⟨rfl, hout, htext, ?_⟩
  rw [htext, List.length_append]
  omega

/-- Witness of C17 for `LINE_MAX = 2048`: the line made of 4094 times `x` (two
chunks of 2047) is written as 2047 times `x`. -/
theorem long_lines_are_split_witness :
    2 ≤ 2048 ∧
    (List.replicate 2047 'x').length = 2048 - 1 ∧
    '\n' ∉ List.replicate 2047 'x' ∧
    uniq_text (input_lines 2048 (List.replicate 2047 'x' ++ List.replicate 2047 'x')) 0 0 0
      = List.replicate 2047 'x' :=
  have hl : (List.replicate 2047 'x').length = 2048 - 1 := List.length_replicate _ _
  have hn : '\n' ∉ List.replicate 2047 'x' := fun h => by
    have := List.eq_of_mem_replicate h
    exact absurd this (by decide)
  ⟨by decide, hl, hn,
    ((long_lines_are_split 2048 (by decide)).2 (List.replicate 2047 'x') hl hn).2.2.1⟩

/-! ## A full buffer followed by a short last line -/

theorem fgets_take_short (B : Line) (hB : '\n' ∉ B) :
    ∀ n : Nat, B.length ≤ n → fgets_take n B = (B, []) := by
  induction B with
  | nil => intro n _; cases n <;> rfl
  | cons b B ih =>
    intro n hn
    have hb : b ≠ '\n' := fun e => hB (e ▸ List.mem_cons_self _ _)
    have hB' : '\n' ∉ B := fun e => hB (List.mem_cons_of_mem _ e)
    obtain ⟨m, rfl⟩ : ∃ m, n = m + 1 := ⟨n - 1, by simp only [List.length_cons] at hn; omega⟩
    have hi := ih hB' m (by simp only [List.length_cons] at hn; omega)
    simp only [fgets_take, hb, if_false]
    rw [hi]

theorem input_lines_chunk_then_line (size : Nat) (A B : Line)
    (hA : A.length = size - 1) (hAn : '\n' ∉ A) (hA0 : A ≠ [])
    (hB : B.length ≤ size - 1) (hBn : '\n' ∉ B) (hB0 : B ≠ []) :
    input_lines size (A ++ B) = [A, B] := by
  obtain ⟨a, A', rfl⟩ := List.exists_cons_of_ne_nil hA0
  obtain ⟨b, B', rfl⟩ := List.exists_cons_of_ne_nil hB0
  have hfuel : ((a :: A') ++ (b :: B')).length = (A'.length + B'.length) + 1 + 1 := by
    simp only [List.length_append, List.length_cons]
    omega
  have h1 : fgets size ((a :: A') ++ (b :: B')) = some (a :: A', b :: B') := by
    have := fgets_take_exact (a :: A') hAn (b :: B')
    rw [hA] at this
    simp only [fgets, List.cons_append]
    rw [← List.cons_append, this]
  have h2 : fgets size (b :: B') = some (b :: B', []) := by
    simp only [fgets]
    rw [fgets_take_short (b :: B') hBn _ hB]
  rw [input_lines, hfuel, read_lines, h1]
  simp only
  rw [read_lines, h2]
  simp only
  cases hk : A'.length + B'.length with
  | zero => rfl
  | succ k => simp [read_lines, fgets]

theorem input_lines_full_buffer_example :
    input_lines 2048 ((List.replicate 2046 'x' ++ [' ']) ++ ['y', ' '])
      = [List.replicate 2046 'x' ++ [' '], ['y', ' ']] := by
  apply input_lines_chunk_then_line
  · rw [List.length_append, List.length_replicate]
    rfl
  · intro h
    rcases List.mem_append.mp h with h | h
    · exact absurd (List.eq_of_mem_replicate h) (by decide)
    · exact absurd (List.mem_singleton.mp h) (by decide)
  · exact List.append_ne_nil_of_right_ne_nil _ (List.cons_ne_nil _ _)
  · decide
  · decide
  · exact List.cons_ne_nil _ _

/-! ## The empty record of the initial buffer on the output stream -/

/-- C4 (evaluation at the failing input): `uniq -s 5` on the two lines `a\n`
and `abcdefg\n`.  The key of the first line is empty, so the line joins the
empty initial buffer, and with `-c` the run `("", 1)` is written as `1 `
with no line after it: the text is the single line `1 1 abcdefg\n`.  Removing
the leading digits and the space after them from that output line leaves
`1 abcdefg\n`, which is not the line `abcdefg\n` that default mode writes. -/
theorem count_mode_stripped_differs_on_empty_key :
    comparison_key ['a', '\n'] 0 5 = [] ∧
    uniq_handed [['a', '\n'], ['a', 'b', 'c', 'd', 'e', 'f', 'g', '\n']] 0 5 COUNT
      = [([], 1), (['a', 'b', 'c', 'd', 'e', 'f', 'g', '\n'], 1)] ∧
    uniq_text [['a', '\n'], ['a', 'b', 'c', 'd', 'e', 'f', 'g', '\n']] 0 5 COUNT
      = ['1', ' ', '1', ' ', 'a', 'b', 'c', 'd', 'e', 'f', 'g', '\n'] ∧
    uniq_text [['a', '\n'], ['a', 'b', 'c', 'd', 'e', 'f', 'g', '\n']] 0 5 0
      = ['a', 'b', 'c', 'd', 'e', 'f', 'g', '\n'] ∧
    (text_lines
        (uniq_text [['a', '\n'], ['a', 'b', 'c', 'd', 'e', 'f', 'g', '\n']] 0 5 COUNT)).map
        strip_count
      = [['1', ' ', 'a', 'b', 'c', 'd', 'e', 'f', 'g', '\n']] ∧
    text_lines (uniq_text [['a', '\n'], ['a', 'b', 'c', 'd', 'e', 'f', 'g', '\n']] 0 5 0)
      = [['a', 'b', 'c', 'd', 'e', 'f', 'g', '\n']] ∧
    (text_lines
        (uniq_text [['a', '\n'], ['a', 'b', 'c', 'd', 'e', 'f', 'g', '\n']] 0 5 COUNT)).map
        strip_count
      ≠ text_lines
        (uniq_text [['a', '\n'], ['a', 'b', 'c', 'd', 'e', 'f', 'g', '\n']] 0 5 0) := by
  decide

/-- C10 (evaluation at the failing input): `uniq -f 1` on the two lines `a\n`
and `b c\n`.  The keys are the empty string and `c\n`, so no line is a
duplicate of the line before it; the first line joins the empty initial
buffer and is written as the empty string, and the text written is the single
line `b c\n`: one line for two input lines. -/
theorem default_output_lines_fewer_on_empty_key :
    [['a', '\n'], ['b', ' ', 'c', '\n']].Chain'
      (fun a b => are_duplicates b a 1 0 = false) ∧
    comparison_key ['a', '\n'] 1 0 = [] ∧
    comparison_key ['b', ' ', 'c', '\n'] 1 0 = ['c', '\n'] ∧
    uniq_handed [['a', '\n'], ['b', ' ', 'c', '\n']] 1 0 0
      = [([], 1), (['b', ' ', 'c', '\n'], 1)] ∧
    uniq_text [['a', '\n'], ['b', ' ', 'c', '\n']] 1 0 0 = ['b', ' ', 'c', '\n'] ∧
    (text_lines (uniq_text [['a', '\n'], ['b', ' ', 'c', '\n']] 1 0 0)).length = 1 ∧
    (text_lines (uniq_text [['a', '\n'], ['b', ' ', 'c', '\n']] 1 0 0)).length
      ≠ [['a', '\n'], ['b', ' ', 'c', '\n']].length :=
  ⟨List.chain'_cons.2 ⟨by decide, List.chain'_singleton _⟩, by decide, by decide, by decide,
    by decide, by decide, by decide⟩

end Uniq
